import Mathlib

/-!
Verification of the k-nearest-neighbor classification engine in
`src/KNN/main.cpp`.

Shallow embedding conventions:
* feature values (`double` in the source) are modelled as rationals `ℚ`;
* a point (`std::vector<double>`) is a `List ℚ`; out-of-range accesses
  (`operator[]`, undefined behavior in C++) are modelled by `List.getD`
  with default `0`, and a separate bounds-checked variant (`Option`-valued)
  is used for the in-bounds claims;
* `calcDistEuclidean` returns `std::sqrt(sum)`.  The scan in `predictOne`
  uses distances only through the strict comparison `<`, and `Real.sqrt`
  is strictly monotone on the (nonnegative) sums of squares, so the
  executable embedding of the scan stores the sum of squares (the squared
  distance) instead of the square root; the lemmas
  `calcDistEuclidean_lt_iff` and `calcDistEuclidean_inj_iff` record that
  this preserves every comparison the source performs;
* `throw std::invalid_argument(msg)` is modelled by `Except.error msg`;
* `std::priority_queue<Neighbor, std::vector<Neighbor>, cmp>` with
  `cmp a b = a.first < b.first` is modelled as the array-backed binary
  max-heap the standard heap algorithms maintain: `hpush` is
  `push_back` + `std::push_heap` (sift the new last element up with the
  strict comparison), `hpop` is `std::pop_heap` + `pop_back` (move the
  last element to the root of the shortened array and sift it down), and
  `htop` is `front()`.
-/

/-- Neighbor record from the source: `using Neighbor = std::pair<double,int>`:
a `(distance, training index)` pair.  The embedding stores the squared
distance in the first component. -/
abbrev Nbr := ℚ × ℕ

/-- Embedding of `calcDistEuclidean` up to the final `std::sqrt`: the loop
`for (i = 0; i < d; ++i) { diff = p1[i] - p2[i]; sum += diff*diff; }`
accumulating the sum of squared differences over the first `d` components. -/
def calcDistSqEuclidean (p1 p2 : List ℚ) (d : ℕ) : ℚ :=
  (List.range d).foldl (fun sum i => sum + (p1.getD i 0 - p2.getD i 0) ^ 2) 0

/-- Embedding of `calcDistEuclidean` itself, `return std::sqrt(sum);`:
the Euclidean distance over the first `d` components. -/
noncomputable def calcDistEuclidean (p1 p2 : List ℚ) (d : ℕ) : ℝ :=
  Real.sqrt (calcDistSqEuclidean p1 p2 d)

theorem le_foldl_add_sq (l : List ℕ) (f : ℕ → ℚ) :
    ∀ a : ℚ, a ≤ l.foldl (fun sum i => sum + f i ^ 2) a := by
  induction l with
  | nil => intro a; simp
  | cons x xs ih =>
      intro a
      simp only [List.foldl_cons]
      have h1 : a ≤ a + f x ^ 2 := by linarith [sq_nonneg (f x)]
      exact h1.trans (ih _)

theorem calcDistSqEuclidean_nonneg (p1 p2 : List ℚ) (d : ℕ) :
    0 ≤ calcDistSqEuclidean p1 p2 d :=
  le_foldl_add_sq (List.range d) (fun i => p1.getD i 0 - p2.getD i 0) 0

theorem calcDistEuclidean_lt_iff (a b c e : List ℚ) (d : ℕ) :
    calcDistEuclidean a b d < calcDistEuclidean c e d ↔
      calcDistSqEuclidean a b d < calcDistSqEuclidean c e d := by
  unfold calcDistEuclidean
  rw [Real.sqrt_lt_sqrt_iff (by exact_mod_cast calcDistSqEuclidean_nonneg a b d)]
  exact_mod_cast Iff.rfl

theorem calcDistEuclidean_inj_iff (a b c e : List ℚ) (d : ℕ) :
    calcDistEuclidean a b d = calcDistEuclidean c e d ↔
      calcDistSqEuclidean a b d = calcDistSqEuclidean c e d := by
  unfold calcDistEuclidean
  rw [Real.sqrt_inj (by exact_mod_cast calcDistSqEuclidean_nonneg a b d)
    (by exact_mod_cast calcDistSqEuclidean_nonneg c e d)]
  exact_mod_cast Iff.rfl

theorem calcDistSqEuclidean_symm (a b : List ℚ) (d : ℕ) :
    calcDistSqEuclidean a b d = calcDistSqEuclidean b a d := by
  unfold calcDistSqEuclidean
  have h : (fun (sum : ℚ) (i : ℕ) => sum + (a.getD i 0 - b.getD i 0) ^ 2) =
      (fun (sum : ℚ) (i : ℕ) => sum + (b.getD i 0 - a.getD i 0) ^ 2) := by
    funext s i; ring
  rw [h]

/-- Dummy neighbor used as the default of `List.getD`; every access the
algorithm performs is proved to be in bounds, so its value is irrelevant. -/
def dNbr : Nbr := (0, 0)

/-- Index of the parent of heap slot `i` in the array-backed binary heap
(`std::priority_queue` stores the root at index 0). -/
def parentIdx (i : ℕ) : ℕ := (i - 1) / 2

/-- Swap of two array slots, the elementary move of the standard heap
algorithms (`std::push_heap` / `std::pop_heap`). -/
def lswap (arr : List Nbr) (i j : ℕ) : List Nbr :=
  (arr.set i (arr.getD j dNbr)).set j (arr.getD i dNbr)

theorem lswap_length (arr : List Nbr) (i j : ℕ) :
    (lswap arr i j).length = arr.length := by
  simp [lswap]

/-- Sift-up of slot `i`, the re-heapify step of `std::push_heap`: while the
parent compares `<` (on the distance component, the source's `cmp`), swap
with the parent. -/
def siftUp (arr : List Nbr) : ℕ → List Nbr
  | 0 => arr
  | i + 1 =>
    if (arr.getD (parentIdx (i + 1)) dNbr).1 < (arr.getD (i + 1) dNbr).1 then
      siftUp (lswap arr (parentIdx (i + 1)) (i + 1)) (parentIdx (i + 1))
    else arr
termination_by i => i
decreasing_by unfold parentIdx; omega

/-- Larger child of slot `i` under the source's comparator (left child when
the right child does not exist or does not compare `<`-greater). -/
def hchild (arr : List Nbr) (i : ℕ) : ℕ :=
  if 2 * i + 2 < arr.length ∧
      (arr.getD (2 * i + 1) dNbr).1 < (arr.getD (2 * i + 2) dNbr).1 then
    2 * i + 2
  else 2 * i + 1

theorem hchild_gt (arr : List Nbr) (i : ℕ) : i < hchild arr i := by
  unfold hchild; split <;> omega

/-- Sift-down of slot `i`, the re-heapify step of `std::pop_heap`: while
some child compares `<`-greater, swap with the larger child. -/
def siftDown (arr : List Nbr) (i : ℕ) : List Nbr :=
  if _h : 2 * i + 1 < arr.length then
    if (arr.getD i dNbr).1 < (arr.getD (hchild arr i) dNbr).1 then
      siftDown (lswap arr i (hchild arr i)) (hchild arr i)
    else arr
  else arr
termination_by arr.length - i
decreasing_by
  rw [lswap_length]
  have h1 := hchild_gt arr i
  omega

/-- Embedding of `heap.push(x)`: `push_back` the new element and sift it up
(`std::push_heap`). -/
def hpush (arr : List Nbr) (x : Nbr) : List Nbr :=
  siftUp (arr ++ [x]) arr.length

/-- Embedding of `heap.pop()`: `std::pop_heap` moves the last element into
the root slot of the range shortened by one, then sifts it down; `pop_back`
then discards the removed maximum. -/
def hpop (arr : List Nbr) : List Nbr :=
  if arr.length ≤ 1 then []
  else siftDown (arr.dropLast.set 0 (arr.getD (arr.length - 1) dNbr)) 0

/-- Embedding of `heap.top()`: the root of the array-backed heap. -/
def htop (arr : List Nbr) : Nbr := arr.getD 0 dNbr

theorem siftUp_length (arr : List Nbr) (i : ℕ) :
    (siftUp arr i).length = arr.length := by
  induction arr, i using siftUp.induct with
  | case1 arr => rw [siftUp]
  | case2 arr i h ih => rw [siftUp, if_pos h]; rw [ih, lswap_length]
  | case3 arr i h => rw [siftUp, if_neg h]

theorem siftDown_length (arr : List Nbr) (i : ℕ) :
    (siftDown arr i).length = arr.length := by
  induction arr, i using siftDown.induct with
  | case1 arr i h hlt ih => rw [siftDown, dif_pos h, if_pos hlt]; rw [ih, lswap_length]
  | case2 arr i h hlt => rw [siftDown, dif_pos h, if_neg hlt]
  | case3 arr i h => rw [siftDown, dif_neg h]

theorem hpush_length (arr : List Nbr) (x : Nbr) :
    (hpush arr x).length = arr.length + 1 := by
  rw [hpush, siftUp_length]; simp

theorem hpop_length (arr : List Nbr) :
    (hpop arr).length = arr.length - 1 := by
  rw [hpop]
  split
  · simp; omega
  · rw [siftDown_length]; simp

/-- Embedding of `static_cast<int>` on a `double`: truncation toward zero. -/
def truncInt (q : ℚ) : ℤ := if 0 ≤ q then ⌊q⌋ else ⌈q⌉

/-- Body of the scan loop of `predictOne` for one training point `x`
(already paired with its distance to the query): insert unconditionally
while the heap holds fewer than `k` entries (`(int)heap.size() < k`),
otherwise replace the maximum only when the new distance compares
strictly smaller (`dist < heap.top().first`). -/
def knnStep (k : ℤ) (heap : List Nbr) (x : Nbr) : List Nbr :=
  if (heap.length : ℤ) < k then hpush heap x
  else if x.1 < (htop heap).1 then hpush (hpop heap) x
  else heap

/-- Squared distance from the query to training point `i`, mirroring the
call `calcDistEuclidean(test, train[i], d)` in the scan loop. -/
def queryDistSq (train : List (List ℚ)) (query : List ℚ) (d : ℕ) (i : ℕ) : ℚ :=
  calcDistSqEuclidean query (train.getD i []) d

/-- Neighbor records `(distance, index)` of all training points in index
order, the sequence the scan loop of `predictOne` runs through. -/
def trainDists (train : List (List ℚ)) (query : List ℚ) (d : ℕ) : List Nbr :=
  (List.range train.length).map (fun i => (queryDistSq train query d i, i))

/-- Heap contents after the scan loop of `predictOne`: the bounded top-k
selection over all training points. -/
def knnScan (train : List (List ℚ)) (query : List ℚ) (k : ℤ) (d : ℕ) : List Nbr :=
  (trainDists train query d).foldl (knnStep k) []

/-- Signed vote contribution of training point `idx`, from the loop body
`label = (int)train[idx][d]; vote += (label == 0) ? -1 : 1;`. -/
def labelSign (train : List (List ℚ)) (d : ℕ) (idx : ℕ) : ℤ :=
  if truncInt ((train.getD idx []).getD d 0) = 0 then -1 else 1

/-- Majority-vote loop of `predictOne`: `while (!heap.empty()) { idx =
heap.top().second; vote += ...; heap.pop(); }`. -/
def voteLoop (train : List (List ℚ)) (d : ℕ) (heap : List Nbr) (vote : ℤ) : ℤ :=
  if _h : heap = [] then vote
  else voteLoop train d (hpop heap) (vote + labelSign train d (htop heap).2)
termination_by heap.length
decreasing_by
  rw [hpop_length]
  have hne : heap.length ≠ 0 := fun hc => _h (List.length_eq_zero.mp hc)
  omega

/-- Embedding of `predictOne`: validate `k`, scan all training points
maintaining the bounded max-heap, then decide by signed majority vote
(`return (vote >= 0) ? 1 : 0`).  A thrown `std::invalid_argument` is
modelled as `Except.error` carrying the source's message. -/
def predictOne (train : List (List ℚ)) (test : List ℚ) (k : ℤ) (d : ℕ) :
    Except String ℤ :=
  if k ≤ 0 then .error "k must be > 0"
  else if (train.length : ℤ) < k then
    .error "k cannot be larger than number of training points"
  else
    .ok (if 0 ≤ voteLoop train d (knnScan train test k d) 0 then 1 else 0)

/-- Embedding of `findKNN`: for each test point in order, predict a class
and append it to the point's feature vector; a `std::invalid_argument`
escaping `predictOne` aborts the loop with nothing recorded. -/
def findKNN (train : List (List ℚ)) (test_points : List (List ℚ)) (k : ℤ)
    (d : ℕ) : Except String (List (List ℚ)) :=
  match test_points with
  | [] => .ok []
  | point :: rest => do
      let cls ← predictOne train point k d
      let out ← findKNN train rest k d
      pure ((point ++ [(cls : ℚ)]) :: out)

/-- Bounds-checked variant of the distance loop: every `p1[i]` / `p2[i]`
access is performed with `List.get?` and an out-of-range access yields
`none` instead of the C++ undefined behavior. -/
def calcDistSqChecked (p1 p2 : List ℚ) (d : ℕ) : Option ℚ :=
  (List.range d).foldl
    (fun acc i => do
      let s ← acc
      let a ← p1[i]?
      let b ← p2[i]?
      pure (s + (a - b) ^ 2))
    (some 0)

/-- Bounds-checked variant of the scan loop of `predictOne`: the accesses
`train[i]` and the two vector reads inside the distance computation are
checked. -/
def knnScanChecked (train : List (List ℚ)) (query : List ℚ) (k : ℤ)
    (d : ℕ) : Option (List Nbr) :=
  (List.range train.length).foldl
    (fun acc i => do
      let h ← acc
      let row ← train[i]?
      let dist ← calcDistSqChecked query row d
      pure (knnStep k h (dist, i)))
    (some [])

/-- Bounds-checked variant of the vote loop of `predictOne`: the label
read `train[idx][d]` is checked. -/
def voteLoopChecked (train : List (List ℚ)) (d : ℕ) (heap : List Nbr)
    (vote : ℤ) : Option ℤ :=
  if _h : heap = [] then some vote
  else do
    let row ← train[(htop heap).2]?
    let lab ← row[d]?
    voteLoopChecked train d (hpop heap) (vote + if truncInt lab = 0 then -1 else 1)
termination_by heap.length
decreasing_by
  rw [hpop_length]
  have hne : heap.length ≠ 0 := fun hc => _h (List.length_eq_zero.mp hc)
  omega

/-- Bounds-checked variant of `predictOne`: identical control flow, but
every vector subscript is checked and an out-of-range access yields
`none`. -/
def predictOneChecked (train : List (List ℚ)) (test : List ℚ) (k : ℤ)
    (d : ℕ) : Option (Except String ℤ) :=
  if k ≤ 0 then some (.error "k must be > 0")
  else if (train.length : ℤ) < k then
    some (.error "k cannot be larger than number of training points")
  else do
    let heap ← knnScanChecked train test k d
    let vote ← voteLoopChecked train d heap 0
    some (.ok (if 0 ≤ vote then 1 else 0))

theorem getD_set_self (l : List Nbr) (i : ℕ) (a : Nbr) (h : i < l.length) :
    (l.set i a).getD i dNbr = a := by
  simp [List.getD_eq_getElem?_getD, List.getElem?_set_self (by simpa using h)]

theorem getD_set_ne (l : List Nbr) (i j : ℕ) (a : Nbr) (h : i ≠ j) :
    (l.set i a).getD j dNbr = l.getD j dNbr := by
  simp [List.getD_eq_getElem?_getD, List.getElem?_set_ne h]

theorem lswap_getD_fst (l : List Nbr) (i j : ℕ) (hi : i < l.length)
    (hij : i ≠ j) : (lswap l i j).getD i dNbr = l.getD j dNbr := by
  unfold lswap
  rw [getD_set_ne _ _ _ _ (Ne.symm hij), getD_set_self _ _ _ hi]

theorem lswap_getD_snd (l : List Nbr) (i j : ℕ) (hj : j < l.length) :
    (lswap l i j).getD j dNbr = l.getD i dNbr := by
  unfold lswap
  rw [getD_set_self _ _ _ (by simpa using hj)]

theorem lswap_getD_other (l : List Nbr) (i j k : ℕ) (hki : k ≠ i)
    (hkj : k ≠ j) : (lswap l i j).getD k dNbr = l.getD k dNbr := by
  unfold lswap
  rw [getD_set_ne _ _ _ _ (Ne.symm hkj), getD_set_ne _ _ _ _ (Ne.symm hki)]

theorem headSwap_perm (xs : List Nbr) (j : ℕ) (x : Nbr) (h : j < xs.length) :
    (xs.getD j dNbr :: xs.set j x).Perm (x :: xs) := by
  induction xs generalizing j with
  | nil => simp at h
  | cons z zs ih =>
      match j with
      | 0 => simpa using List.Perm.swap x z zs
      | j + 1 =>
          have h1 : j < zs.length := by simpa using h
          exact ((List.Perm.swap z (zs.getD j dNbr) (zs.set j x)).trans
            ((ih j h1).cons z)).trans (List.Perm.swap x z zs)

theorem lswap_perm (l : List Nbr) (i j : ℕ) (hi : i < l.length)
    (hj : j < l.length) : (lswap l i j).Perm l := by
  induction l generalizing i j with
  | nil => simp at hi
  | cons x xs ih =>
      match i, j with
      | 0, 0 => simp [lswap]
      | 0, j + 1 =>
          have h1 : j < xs.length := by simpa using hj
          have he : lswap (x :: xs) 0 (j + 1) = xs.getD j dNbr :: xs.set j x := by
            simp [lswap]
          rw [he]
          exact headSwap_perm xs j x h1
      | i + 1, 0 =>
          have h1 : i < xs.length := by simpa using hi
          have he : lswap (x :: xs) (i + 1) 0 = xs.getD i dNbr :: xs.set i x := by
            simp [lswap]
          rw [he]
          exact headSwap_perm xs i x h1
      | i + 1, j + 1 =>
          have he : lswap (x :: xs) (i + 1) (j + 1) = x :: lswap xs i j := by
            simp [lswap]
          rw [he]
          exact (ih i j (by simpa using hi) (by simpa using hj)).cons x

theorem siftUp_perm (arr : List Nbr) (i : ℕ) (h : i < arr.length) :
    (siftUp arr i).Perm arr := by
  induction arr, i using siftUp.induct with
  | case1 arr => rw [siftUp]
  | case2 arr i hlt ih =>
      rw [siftUp, if_pos hlt]
      have hp : parentIdx (i + 1) < i + 1 := by unfold parentIdx; omega
      have h2 : parentIdx (i + 1) < (lswap arr (parentIdx (i + 1)) (i + 1)).length := by
        rw [lswap_length]; omega
      exact (ih h2).trans (lswap_perm arr _ _ (by omega) h)
  | case3 arr i hlt => rw [siftUp, if_neg hlt]

theorem siftDown_perm (arr : List Nbr) (i : ℕ) : (siftDown arr i).Perm arr := by
  induction arr, i using siftDown.induct with
  | case1 arr i h hlt ih =>
      rw [siftDown, dif_pos h, if_pos hlt]
      have hc : hchild arr i < arr.length := by unfold hchild; split <;> omega
      exact ih.trans (lswap_perm arr i (hchild arr i) (by omega) hc)
  | case2 arr i h hlt => rw [siftDown, dif_pos h, if_neg hlt]
  | case3 arr i h => rw [siftDown, dif_neg h]

theorem hpush_perm (arr : List Nbr) (x : Nbr) : (hpush arr x).Perm (x :: arr) := by
  unfold hpush
  have h1 : arr.length < (arr ++ [x]).length := by simp
  exact (siftUp_perm _ _ h1).trans (List.perm_append_singleton x arr)

theorem getD_last_cons_dropLast_perm (t : List Nbr) (ht : t ≠ []) :
    (t.getD (t.length - 1) dNbr :: t.dropLast).Perm t := by
  have h1 : t.getD (t.length - 1) dNbr = t.getLast ht := by
    have hl : t.length - 1 < t.length := by
      have := List.length_pos.mpr ht; omega
    rw [List.getLast_eq_getElem]
    rw [List.getD_eq_getElem?_getD, List.getElem?_eq_getElem hl]
    rfl
  rw [h1]
  conv_rhs => rw [← List.dropLast_append_getLast ht]
  exact (List.perm_append_singleton _ _).symm

theorem hpop_perm (arr : List Nbr) : (hpop arr).Perm arr.tail := by
  unfold hpop
  split
  · rename_i hlen
    match arr, hlen with
    | [], _ => simp
    | [x], _ => simp
    | x :: y :: t, hlen => simp at hlen
  · rename_i hlen
    refine (siftDown_perm _ 0).trans ?_
    match arr with
    | [] => simp at hlen
    | z :: t =>
        have ht : t ≠ [] := by
          intro hcon; rw [hcon] at hlen; simp at hlen
        have hidx : (z :: t).length - 1 = (t.length - 1) + 1 := by
          have := List.length_pos.mpr ht; simp; omega
        rw [hidx, List.getD_cons_succ]
        have hdl : (z :: t).dropLast = z :: t.dropLast := by
          match t, ht with
          | w :: t', _ => simp
        rw [hdl]
        exact getD_last_cons_dropLast_perm t ht

/-- Max-heap property of the array-backed heap maintained by
`std::priority_queue` with the source's comparator `a.first < b.first`:
no element compares `<`-greater than its parent. -/
def heapProp (arr : List Nbr) : Prop :=
  ∀ j, j < arr.length → 0 < j →
    (arr.getD j dNbr).1 ≤ (arr.getD (parentIdx j) dNbr).1

theorem parentIdx_lt (j : ℕ) (h : 0 < j) : parentIdx j < j := by
  unfold parentIdx; omega

theorem heapProp_le_root (arr : List Nbr) (h : heapProp arr) :
    ∀ j, j < arr.length → (arr.getD j dNbr).1 ≤ (arr.getD 0 dNbr).1 := by
  intro j
  induction j using Nat.strong_induction_on with
  | _ j ih =>
    intro hj
    rcases Nat.eq_zero_or_pos j with h0 | h0
    · subst h0; exact le_rfl
    · have hp : parentIdx j < j := parentIdx_lt j h0
      exact (h j hj h0).trans (ih (parentIdx j) hp (lt_trans hp hj))

theorem heapProp_top_max (arr : List Nbr) (h : heapProp arr) (x : Nbr)
    (hx : x ∈ arr) : x.1 ≤ (htop arr).1 := by
  obtain ⟨i, hi, rfl⟩ := List.mem_iff_getElem.mp hx
  have h1 := heapProp_le_root arr h i hi
  unfold htop
  simpa [List.getD_eq_getElem?_getD, List.getElem?_eq_getElem hi] using h1

/-- Invariant of the sift-up loop: the heap property holds everywhere
except possibly on the edge from slot `i` up to its parent, and the
parent of `i` already dominates the children of `i`. -/
def upInv (arr : List Nbr) (i : ℕ) : Prop :=
  (∀ j, j < arr.length → 0 < j → j ≠ i →
    (arr.getD j dNbr).1 ≤ (arr.getD (parentIdx j) dNbr).1) ∧
  (0 < i → ∀ c, c < arr.length → parentIdx c = i →
    (arr.getD c dNbr).1 ≤ (arr.getD (parentIdx i) dNbr).1)

theorem upInv_swap_parent (arr : List Nbr) (i : ℕ) (hi : i + 1 < arr.length)
    (hinv : upInv arr (i + 1))
    (hlt : (arr.getD (parentIdx (i + 1)) dNbr).1 < (arr.getD (i + 1) dNbr).1) :
    upInv (lswap arr (parentIdx (i + 1)) (i + 1)) (parentIdx (i + 1)) := by
  set p := parentIdx (i + 1) with hp
  have hpi : p < i + 1 := parentIdx_lt (i + 1) (by omega)
  have hpn : p < arr.length := lt_trans hpi hi
  have hne : p ≠ i + 1 := by omega
  have hAp : (lswap arr p (i + 1)).getD p dNbr = arr.getD (i + 1) dNbr :=
    lswap_getD_fst arr p (i + 1) hpn hne
  have hAi : (lswap arr p (i + 1)).getD (i + 1) dNbr = arr.getD p dNbr :=
    lswap_getD_snd arr p (i + 1) hi
  have hchildp : i + 1 = 2 * p + 1 ∨ i + 1 = 2 * p + 2 := by
    rw [hp]; unfold parentIdx; omega
  constructor
  · intro j hj h0 hjp
    rw [lswap_length] at hj
    by_cases hji : j = i + 1
    · subst hji
      rw [hAi, ← hp, hAp]
      exact hlt.le
    · have hAj : (lswap arr p (i + 1)).getD j dNbr = arr.getD j dNbr :=
        lswap_getD_other arr p (i + 1) j hjp hji
      rw [hAj]
      by_cases hpj1 : parentIdx j = i + 1
      · rw [hpj1, hAi]
        have := hinv.2 (by omega) j hj hpj1
        rw [← hp] at this
        exact this
      · by_cases hpj2 : parentIdx j = p
        · rw [hpj2, hAp]
          exact (hinv.1 j hj h0 hji).trans (by rw [hpj2]; exact hlt.le)
        · rw [lswap_getD_other arr p (i + 1) (parentIdx j) hpj2 hpj1]
          exact hinv.1 j hj h0 hji
  · intro hp0 c hc hpc
    rw [lswap_length] at hc
    have hppi : parentIdx p < p := parentIdx_lt p hp0
    have hppne1 : parentIdx p ≠ p := by omega
    have hppne2 : parentIdx p ≠ i + 1 := by omega
    rw [lswap_getD_other arr p (i + 1) (parentIdx p) hppne1 hppne2]
    by_cases hci : c = i + 1
    · subst hci
      rw [hAi]
      exact hinv.1 p hpn hp0 hne
    · have hcp : c ≠ p := by
        intro hcon
        rw [hcon] at hpc
        omega
      rw [lswap_getD_other arr p (i + 1) c hcp hci]
      have hc0 : 0 < c := by
        have : c = 2 * p + 1 ∨ c = 2 * p + 2 := by
          revert hpc; unfold parentIdx; omega
        omega
      have h1 := hinv.1 c hc hc0 hci
      rw [hpc] at h1
      exact h1.trans (hinv.1 p hpn hp0 hne)

theorem siftUp_heapProp (arr : List Nbr) (i : ℕ) (hi : i < arr.length)
    (hinv : upInv arr i) : heapProp (siftUp arr i) := by
  induction arr, i using siftUp.induct with
  | case1 arr =>
      rw [siftUp]
      intro j hj h0
      exact hinv.1 j hj h0 (by omega)
  | case2 arr i hlt ih =>
      rw [siftUp, if_pos hlt]
      have hpi : parentIdx (i + 1) < i + 1 := parentIdx_lt (i + 1) (by omega)
      exact ih (by rw [lswap_length]; omega) (upInv_swap_parent arr i hi hinv hlt)
  | case3 arr i hlt =>
      rw [siftUp, if_neg hlt]
      intro j hj h0
      by_cases hji : j = i + 1
      · subst hji; exact not_lt.mp hlt
      · exact hinv.1 j hj h0 hji

theorem hchild_lt (arr : List Nbr) (i : ℕ) (hl : 2 * i + 1 < arr.length) :
    hchild arr i < arr.length := by
  unfold hchild; split <;> omega

theorem hchild_max_left (arr : List Nbr) (i : ℕ) :
    (arr.getD (2 * i + 1) dNbr).1 ≤ (arr.getD (hchild arr i) dNbr).1 := by
  unfold hchild
  split
  · rename_i hcond; exact hcond.2.le
  · exact le_rfl

theorem hchild_max_right (arr : List Nbr) (i : ℕ) (hr : 2 * i + 2 < arr.length) :
    (arr.getD (2 * i + 2) dNbr).1 ≤ (arr.getD (hchild arr i) dNbr).1 := by
  unfold hchild
  split
  · exact le_rfl
  · rename_i hcond
    push_neg at hcond
    exact hcond hr

theorem hchild_cases (arr : List Nbr) (i : ℕ) :
    hchild arr i = 2 * i + 1 ∨ hchild arr i = 2 * i + 2 := by
  unfold hchild; split
  · right; rfl
  · left; rfl

theorem parentIdx_hchild (arr : List Nbr) (i : ℕ) :
    parentIdx (hchild arr i) = i := by
  rcases hchild_cases arr i with h | h <;> rw [h] <;> unfold parentIdx <;> omega

/-- Invariant of the sift-down loop: the heap property holds on every edge
except possibly the edges from slot `i` down to its children, and the
parent of `i` already dominates the children of `i`. -/
def downInv (arr : List Nbr) (i : ℕ) : Prop :=
  (∀ j, j < arr.length → 0 < j → parentIdx j ≠ i →
    (arr.getD j dNbr).1 ≤ (arr.getD (parentIdx j) dNbr).1) ∧
  (0 < i → ∀ c, c < arr.length → parentIdx c = i →
    (arr.getD c dNbr).1 ≤ (arr.getD (parentIdx i) dNbr).1)

theorem downInv_swap_child (arr : List Nbr) (i : ℕ)
    (hl : 2 * i + 1 < arr.length) (hinv : downInv arr i)
    (hlt : (arr.getD i dNbr).1 < (arr.getD (hchild arr i) dNbr).1) :
    downInv (lswap arr i (hchild arr i)) (hchild arr i) := by
  set c := hchild arr i with hc
  have hic : i < c := hchild_gt arr i
  have hcn : c < arr.length := hchild_lt arr i hl
  have hpc : parentIdx c = i := parentIdx_hchild arr i
  have hcc : c = 2 * i + 1 ∨ c = 2 * i + 2 := hchild_cases arr i
  have hAi : (lswap arr i c).getD i dNbr = arr.getD c dNbr :=
    lswap_getD_fst arr i c (by omega) (by omega)
  have hAc : (lswap arr i c).getD c dNbr = arr.getD i dNbr :=
    lswap_getD_snd arr i c hcn
  constructor
  · intro j hj h0 hjc
    rw [lswap_length] at hj
    by_cases hji : j = i
    · subst hji
      have hpi : parentIdx j < j := parentIdx_lt j h0
      have hpne1 : parentIdx j ≠ j := by omega
      have hpne2 : parentIdx j ≠ c := by omega
      rw [hAi, lswap_getD_other arr j c (parentIdx j) hpne1 hpne2]
      exact hinv.2 h0 c hcn hpc
    · by_cases hjc2 : j = c
      · subst hjc2
        rw [hAc, hpc, hAi]
        exact hlt.le
      · have hAj : (lswap arr i c).getD j dNbr = arr.getD j dNbr :=
          lswap_getD_other arr i c j hji hjc2
        rw [hAj]
        by_cases hpj : parentIdx j = i
        · rw [hpj, hAi]
          have hj12 : j = 2 * i + 1 ∨ j = 2 * i + 2 := by
            revert hpj; unfold parentIdx; omega
          rcases hj12 with hj1 | hj2
          · rw [hj1]; exact hchild_max_left arr i
          · rw [hj2]; exact hchild_max_right arr i (hj2 ▸ hj)
        · rw [lswap_getD_other arr i c (parentIdx j) hpj hjc]
          exact hinv.1 j hj h0 hpj
  · intro hc0 g hg hpg
    rw [lswap_length] at hg
    have hgc : 2 * c + 1 ≤ g := by
      revert hpg; unfold parentIdx; omega
    have hgne1 : g ≠ i := by omega
    have hgne2 : g ≠ c := by omega
    rw [lswap_getD_other arr i c g hgne1 hgne2, hpc, hAi]
    have h1 := hinv.1 g hg (by omega) (by rw [hpg]; omega)
    rw [hpg] at h1
    exact h1

theorem siftDown_heapProp (arr : List Nbr) (i : ℕ) (hinv : downInv arr i) :
    heapProp (siftDown arr i) := by
  induction arr, i using siftDown.induct with
  | case1 arr i h hlt ih =>
      rw [siftDown, dif_pos h, if_pos hlt]
      exact ih (downInv_swap_child arr i h hinv hlt)
  | case2 arr i h hlt =>
      rw [siftDown, dif_pos h, if_neg hlt]
      intro j hj h0
      by_cases hpj : parentIdx j = i
      · rw [hpj]
        have hj12 : j = 2 * i + 1 ∨ j = 2 * i + 2 := by
          revert hpj; unfold parentIdx; omega
        have hle : (arr.getD j dNbr).1 ≤ (arr.getD (hchild arr i) dNbr).1 := by
          rcases hj12 with hj1 | hj2
          · rw [hj1]; exact hchild_max_left arr i
          · rw [hj2]; exact hchild_max_right arr i (hj2 ▸ hj)
        exact hle.trans (not_lt.mp hlt)
      · exact hinv.1 j hj h0 hpj
  | case3 arr i h =>
      rw [siftDown, dif_neg h]
      intro j hj h0
      have hpj : parentIdx j ≠ i := by
        intro hcon
        have : j = 2 * i + 1 ∨ j = 2 * i + 2 := by
          revert hcon; unfold parentIdx; omega
        omega
      exact hinv.1 j hj h0 hpj

theorem getD_append_lt (l : List Nbr) (x : Nbr) (j : ℕ) (h : j < l.length) :
    (l ++ [x]).getD j dNbr = l.getD j dNbr := by
  rw [List.getD_eq_getElem?_getD, List.getD_eq_getElem?_getD,
    List.getElem?_append_left h]

theorem hpush_heapProp (arr : List Nbr) (x : Nbr) (h : heapProp arr) :
    heapProp (hpush arr x) := by
  unfold hpush
  apply siftUp_heapProp _ _ (by simp)
  constructor
  · intro j hj h0 hjn
    simp only [List.length_append, List.length_cons, List.length_nil] at hj
    have hjlt : j < arr.length := by omega
    have hplt : parentIdx j < arr.length :=
      lt_trans (parentIdx_lt j h0) hjlt
    rw [getD_append_lt _ _ _ hjlt, getD_append_lt _ _ _ hplt]
    exact h j hjlt h0
  · intro h0 c hc hpc
    exfalso
    simp only [List.length_append, List.length_cons, List.length_nil] at hc
    revert hpc; unfold parentIdx; omega

theorem getD_dropLast_set_lt (arr : List Nbr) (y : Nbr) (j : ℕ)
    (h0 : 0 < j) (hj : j < arr.length - 1) :
    (arr.dropLast.set 0 y).getD j dNbr = arr.getD j dNbr := by
  rw [getD_set_ne _ _ _ _ (by omega)]
  rw [List.getD_eq_getElem?_getD, List.getD_eq_getElem?_getD,
    List.getElem?_dropLast]
  rw [if_pos (by simpa using hj)]

theorem hpop_heapProp (arr : List Nbr) (h : heapProp arr) :
    heapProp (hpop arr) := by
  unfold hpop
  split
  · intro j hj h0; simp at hj
  · rename_i hlen
    apply siftDown_heapProp
    constructor
    · intro j hj h0 hpj
      simp only [List.length_set, List.length_dropLast] at hj
      have hp0 : 0 < parentIdx j := Nat.pos_of_ne_zero hpj
      have hplt : parentIdx j < arr.length - 1 :=
        lt_trans (parentIdx_lt j h0) hj
      rw [getD_dropLast_set_lt arr _ j h0 hj,
        getD_dropLast_set_lt arr _ (parentIdx j) hp0 hplt]
      exact h j (by omega) h0
    · intro h0
      exact absurd h0 (lt_irrefl 0)

theorem htop_cons (a : Nbr) (t : List Nbr) : htop (a :: t) = a := rfl

theorem htop_mem (arr : List Nbr) (h : arr ≠ []) : htop arr ∈ arr := by
  match arr with
  | a :: t => exact List.mem_cons_self a t

theorem sub_erase_of_le (t : Nbr) (h p : Multiset Nbr) (hle : h ≤ p)
    (ht : t ∈ h) : p - h.erase t = t ::ₘ (p - h) := by
  ext v
  have hc := Multiset.le_iff_count.mp hle v
  have hct := Multiset.le_iff_count.mp hle t
  have htc : 1 ≤ Multiset.count t h := Multiset.one_le_count_iff_mem.mpr ht
  by_cases hvt : v = t
  · subst hvt
    rw [Multiset.count_sub, Multiset.count_erase_self, Multiset.count_cons_self,
      Multiset.count_sub]
    omega
  · rw [Multiset.count_sub, Multiset.count_erase_of_ne hvt,
      Multiset.count_cons_of_ne hvt, Multiset.count_sub]

theorem coe_eq_top_cons_tail (h : List Nbr) (hne : h ≠ []) :
    (h : Multiset Nbr) = htop h ::ₘ (h.tail : Multiset Nbr) := by
  match h with
  | a :: t => rw [htop_cons]; rfl

/-- Loop invariant of the scan in `predictOne`: after processing the
multiset `processed` of neighbor records, the heap `h` satisfies the heap
property, holds `min |processed| k` records, its records are records
already processed, and every retained record's distance is at most the
distance of every processed record not retained (the heap holds a
bottom-k selection of what has been seen). -/
def scanInv (k : ℕ) (processed : Multiset Nbr) (h : List Nbr) : Prop :=
  heapProp h ∧ h.length = min (Multiset.card processed) k ∧
  (h : Multiset Nbr) ≤ processed ∧
  ∀ a ∈ h, ∀ b ∈ processed - (h : Multiset Nbr), a.1 ≤ b.1


theorem knnStep_inv (k : ℤ) (hk : 0 < k) (processed : Multiset Nbr)
    (h : List Nbr) (hinv : scanInv k.toNat processed h) (x : Nbr) :
    scanInv k.toNat (x ::ₘ processed) (knnStep k h x) := by
  obtain ⟨hheap, hlen, hsub, hsep⟩ := hinv
  have hktn : (k.toNat : ℤ) = k := Int.toNat_of_nonneg hk.le
  unfold knnStep
  by_cases hsize : (h.length : ℤ) < k
  · rw [if_pos hsize]
    have hlk : h.length < k.toNat := by omega
    have hcard : Multiset.card processed = h.length := by omega
    have hfull : (h : Multiset Nbr) = processed :=
      Multiset.eq_of_le_of_card_le hsub (by rw [hcard]; simp)
    have hperm : ((hpush h x : List Nbr) : Multiset Nbr) = x ::ₘ (h : Multiset Nbr) := by
      rw [Multiset.coe_eq_coe.mpr (hpush_perm h x)]
      exact (Multiset.cons_coe x h).symm
    refine ⟨hpush_heapProp h x hheap, ?_, ?_, ?_⟩
    · rw [hpush_length]
      simp only [Multiset.card_cons]
      omega
    · rw [hperm]
      exact Multiset.cons_le_cons x hsub
    · intro a ha b hb
      rw [hperm, hfull, Multiset.sub_cons, Multiset.erase_cons_head, tsub_self] at hb
      exact absurd hb (Multiset.not_mem_zero b)
  · rw [if_neg hsize]
    have hlk : h.length = k.toNat := by omega
    have hcard : k.toNat ≤ Multiset.card processed := by omega
    have hne : h ≠ [] := by
      intro hcon
      rw [hcon] at hlk
      simp at hlk
      omega
    have htm := htop_mem h hne
    have hcoe := coe_eq_top_cons_tail h hne
    have htop_in_coe : htop h ∈ (h : Multiset Nbr) := Multiset.mem_coe.mpr htm
    have htail_le : (h.tail : Multiset Nbr) ≤ processed := by
      refine le_trans ?_ hsub
      rw [hcoe]
      exact Multiset.le_cons_self _ _
    have htail_erase : (h.tail : Multiset Nbr) = (h : Multiset Nbr).erase (htop h) := by
      rw [hcoe, Multiset.erase_cons_head]
    have hPsubT : (x ::ₘ processed) - (x ::ₘ (h.tail : Multiset Nbr)) =
        htop h ::ₘ (processed - (h : Multiset Nbr)) := by
      rw [Multiset.sub_cons, Multiset.erase_cons_head, htail_erase]
      exact sub_erase_of_le (htop h) _ _ hsub htop_in_coe
    by_cases hdist : x.1 < (htop h).1
    · rw [if_pos hdist]
      have hpperm : (hpush (hpop h) x).Perm (x :: h.tail) :=
        (hpush_perm (hpop h) x).trans ((hpop_perm h).cons x)
      have hperm : ((hpush (hpop h) x : List Nbr) : Multiset Nbr) =
          x ::ₘ (h.tail : Multiset Nbr) := by
        rw [Multiset.coe_eq_coe.mpr hpperm]
        exact (Multiset.cons_coe x h.tail).symm
      refine ⟨hpush_heapProp _ x (hpop_heapProp h hheap), ?_, ?_, ?_⟩
      · rw [hpush_length, hpop_length]
        simp only [Multiset.card_cons]
        have hpos : 0 < h.length := List.length_pos.mpr hne
        omega
      · rw [hperm]
        exact Multiset.cons_le_cons x htail_le
      · intro a ha b hb
        rw [hperm, hPsubT] at hb
        have hamem : a = x ∨ a ∈ h.tail := by
          have h1 : a ∈ x :: h.tail := hpperm.mem_iff.mp ha
          exact List.mem_cons.mp h1
        rcases Multiset.mem_cons.mp hb with hbt | hbp
        · subst hbt
          rcases hamem with hax | hat
          · subst hax
            exact hdist.le
          · exact heapProp_top_max h hheap a (List.mem_of_mem_tail hat)
        · rcases hamem with hax | hat
          · subst hax
            exact hdist.le.trans (hsep (htop h) htm b hbp)
          · exact hsep a (List.mem_of_mem_tail hat) b hbp
    · rw [if_neg hdist]
      refine ⟨hheap, ?_, ?_, ?_⟩
      · simp only [Multiset.card_cons]
        omega
      · exact le_trans hsub (Multiset.le_cons_self _ _)
      · intro a ha b hb
        rw [Multiset.cons_sub_of_le x hsub] at hb
        rcases Multiset.mem_cons.mp hb with hbx | hbp
        · subst hbx
          exact (heapProp_top_max h hheap a ha).trans (not_lt.mp hdist)
        · exact hsep a ha b hbp

theorem knnScan_foldl_inv (k : ℤ) (hk : 0 < k) (xs : List Nbr) :
    ∀ (processed : Multiset Nbr) (h : List Nbr),
      scanInv k.toNat processed h →
      scanInv k.toNat (processed + (xs : Multiset Nbr)) (xs.foldl (knnStep k) h) := by
  induction xs with
  | nil => intro p h hinv; simpa using hinv
  | cons x rest ih =>
      intro p h hinv
      simp only [List.foldl_cons]
      have h1 := knnStep_inv k hk p h hinv x
      have h2 := ih (x ::ₘ p) (knnStep k h x) h1
      have heq : (x ::ₘ p) + (rest : Multiset Nbr) = p + ((x :: rest : List Nbr) : Multiset Nbr) := by
        rw [← Multiset.cons_coe, Multiset.cons_add, Multiset.add_cons]
      rw [heq] at h2
      exact h2

theorem knnScan_inv (train : List (List ℚ)) (query : List ℚ) (k : ℤ) (d : ℕ)
    (hk : 0 < k) :
    scanInv k.toNat ((trainDists train query d : List Nbr) : Multiset Nbr)
      (knnScan train query k d) := by
  have h0 : scanInv k.toNat 0 [] := by
    refine ⟨?_, by simp, by simp, by simp⟩
    intro j hj h0
    simp at hj
  have h1 := knnScan_foldl_inv k hk (trainDists train query d) 0 [] h0
  simpa [knnScan] using h1

theorem bottomK_sorted_take :
    ∀ (s : List ℚ), s.Sorted (· ≤ ·) → ∀ (k : ℕ) (M : Multiset ℚ),
      M ≤ (s : Multiset ℚ) → Multiset.card M = k →
      (∀ x ∈ M, ∀ y ∈ ((s : Multiset ℚ) - M), x ≤ y) →
      M = ((s.take k : List ℚ) : Multiset ℚ) := by
  intro s
  induction s with
  | nil =>
      intro _ k M hM hcard _
      have hz : M = 0 := Multiset.le_zero.mp (by simpa using hM)
      simp [hz]
  | cons a t ih =>
      intro hs k M hM hcard hsep
      match k with
      | 0 =>
          have hz : M = 0 := Multiset.card_eq_zero.mp hcard
          simp [hz]
      | k + 1 =>
          have hMne : M ≠ 0 := by
            intro hcon
            rw [hcon] at hcard
            simp at hcard
          have hmin : ∀ y ∈ a :: t, a ≤ y := by
            intro y hy
            rcases List.mem_cons.mp hy with hya | hyt
            · exact le_of_eq hya.symm
            · exact List.rel_of_sorted_cons hs y hyt
          have haM : a ∈ M := by
            by_contra hnot
            have haS : a ∈ ((a :: t : List ℚ) : Multiset ℚ) := by simp
            have hdiff : a ∈ ((a :: t : List ℚ) : Multiset ℚ) - M := by
              apply Multiset.one_le_count_iff_mem.mp
              rw [Multiset.count_sub]
              have h1 : 1 ≤ Multiset.count a ((a :: t : List ℚ) : Multiset ℚ) :=
                Multiset.one_le_count_iff_mem.mpr haS
              have h2 : Multiset.count a M = 0 := Multiset.count_eq_zero.mpr hnot
              omega
            obtain ⟨x, hx⟩ := Multiset.exists_mem_of_ne_zero hMne
            have hx1 : x ≤ a := hsep x hx a hdiff
            have hx2 : a ≤ x := by
              apply hmin x
              have := Multiset.mem_of_le hM hx
              simpa using this
            have hxa : x = a := le_antisymm hx1 hx2
            exact hnot (hxa ▸ hx)
          have herase : ((a :: t : List ℚ) : Multiset ℚ).erase a = (t : Multiset ℚ) := by
            rw [← Multiset.cons_coe, Multiset.erase_cons_head]
          have hM' : M.erase a ≤ (t : Multiset ℚ) := by
            have h1 := Multiset.erase_le_erase a hM
            rwa [herase] at h1
          have hcard' : Multiset.card (M.erase a) = k := by
            rw [Multiset.card_erase_of_mem haM, hcard]
            rfl
          have hsubeq : ((a :: t : List ℚ) : Multiset ℚ) - M =
              (t : Multiset ℚ) - M.erase a := by
            conv_lhs => rw [← Multiset.cons_erase haM]
            rw [← Multiset.cons_coe, Multiset.sub_cons, Multiset.erase_cons_head]
          have hsep' : ∀ x ∈ M.erase a, ∀ y ∈ ((t : Multiset ℚ) - M.erase a), x ≤ y := by
            intro x hx y hy
            exact hsep x (Multiset.mem_of_mem_erase hx) y (by rw [hsubeq]; exact hy)
          have hrec := ih hs.of_cons k (M.erase a) hM' hcard' hsep'
          rw [← Multiset.cons_erase haM, hrec]
          rw [show (a :: t).take (k + 1) = a :: t.take k from rfl]
          exact Multiset.cons_coe a _

theorem map_fst_erase (p : Multiset Nbr) (a : Nbr) (hap : a ∈ p) :
    (p.erase a).map Prod.fst = (p.map Prod.fst).erase a.1 := by
  conv_rhs => rw [← Multiset.cons_erase hap]
  rw [Multiset.map_cons, Multiset.erase_cons_head]

theorem map_fst_sub (h : Multiset Nbr) :
    ∀ (p : Multiset Nbr), h ≤ p →
      (p - h).map Prod.fst = p.map Prod.fst - h.map Prod.fst := by
  induction h using Multiset.induction_on with
  | empty => intro p _; simp
  | cons a s ih =>
      intro p hle
      have hap : a ∈ p := Multiset.mem_of_le hle (Multiset.mem_cons_self a s)
      have hs : s ≤ p.erase a := by
        rw [← Multiset.erase_cons_head a s]
        exact Multiset.erase_le_erase a hle
      rw [Multiset.sub_cons, ih (p.erase a) hs, Multiset.map_cons, Multiset.sub_cons]
      rw [map_fst_erase p a hap]

theorem voteLoop_eq_sum (train : List (List ℚ)) (d : ℕ) (heap : List Nbr)
    (vote : ℤ) :
    voteLoop train d heap vote =
      vote + (heap.map (fun p => labelSign train d p.2)).sum := by
  induction heap, vote using voteLoop.induct train d with
  | case1 vote => rw [voteLoop, dif_pos rfl]; simp
  | case2 heap vote hne ih =>
      rw [voteLoop, dif_neg hne, ih]
      have hsum : ((hpop heap).map (fun p => labelSign train d p.2)).sum =
          ((heap.tail).map (fun p => labelSign train d p.2)).sum :=
        List.Perm.sum_eq ((hpop_perm heap).map _)
      rw [hsum]
      match heap, hne with
      | a :: t, _ =>
          rw [htop_cons]
          simp only [List.tail_cons, List.map_cons, List.sum_cons]
          omega

theorem trainDists_length (train : List (List ℚ)) (query : List ℚ) (d : ℕ) :
    (trainDists train query d).length = train.length := by
  simp [trainDists]

theorem mem_trainDists (train : List (List ℚ)) (query : List ℚ) (d : ℕ)
    (a : Nbr) :
    a ∈ trainDists train query d ↔
      a.2 < train.length ∧ a = (queryDistSq train query d a.2, a.2) := by
  constructor
  · intro h
    obtain ⟨i, hi, heq⟩ := List.mem_map.mp h
    have hi' : i < train.length := List.mem_range.mp hi
    subst heq
    exact ⟨hi', rfl⟩
  · rintro ⟨h1, h2⟩
    rw [h2]
    exact List.mem_map.mpr ⟨a.2, List.mem_range.mpr h1, rfl⟩

theorem trainDists_map_snd (train : List (List ℚ)) (query : List ℚ) (d : ℕ) :
    (trainDists train query d).map Prod.snd = List.range train.length := by
  unfold trainDists
  rw [List.map_map]
  exact List.map_id _

theorem knnScan_length (train : List (List ℚ)) (query : List ℚ) (k : ℤ)
    (d : ℕ) (hk : 0 < k) (hkn : k.toNat ≤ train.length) :
    (knnScan train query k d).length = k.toNat := by
  have h := (knnScan_inv train query k d hk).2.1
  rw [Multiset.coe_card, trainDists_length] at h
  omega

theorem knnScan_sub (train : List (List ℚ)) (query : List ℚ) (k : ℤ) (d : ℕ)
    (hk : 0 < k) :
    ((knnScan train query k d : List Nbr) : Multiset Nbr) ≤
      ((trainDists train query d : List Nbr) : Multiset Nbr) :=
  (knnScan_inv train query k d hk).2.2.1

theorem knnScan_mem_trainDists (train : List (List ℚ)) (query : List ℚ)
    (k : ℤ) (d : ℕ) (hk : 0 < k) (a : Nbr)
    (ha : a ∈ knnScan train query k d) : a ∈ trainDists train query d :=
  Multiset.mem_coe.mp
    (Multiset.mem_of_le (knnScan_sub train query k d hk) (Multiset.mem_coe.mpr ha))

theorem knnScan_snd_lt (train : List (List ℚ)) (query : List ℚ) (k : ℤ)
    (d : ℕ) (hk : 0 < k) (a : Nbr) (ha : a ∈ knnScan train query k d) :
    a.2 < train.length :=
  ((mem_trainDists train query d a).mp
    (knnScan_mem_trainDists train query k d hk a ha)).1

theorem knnScan_snd_nodup (train : List (List ℚ)) (query : List ℚ) (k : ℤ)
    (d : ℕ) (hk : 0 < k) : ((knnScan train query k d).map Prod.snd).Nodup := by
  have h1 : Multiset.map Prod.snd ((knnScan train query k d : List Nbr) : Multiset Nbr) ≤
      Multiset.map Prod.snd ((trainDists train query d : List Nbr) : Multiset Nbr) :=
    Multiset.map_le_map (knnScan_sub train query k d hk)
  have h2 : (Multiset.map Prod.snd ((trainDists train query d : List Nbr) : Multiset Nbr)).Nodup := by
    have he : Multiset.map Prod.snd ((trainDists train query d : List Nbr) : Multiset Nbr) =
        (((trainDists train query d).map Prod.snd : List ℕ) : Multiset ℕ) := rfl
    rw [he, trainDists_map_snd]
    exact Multiset.coe_nodup.mpr (List.nodup_range _)
  have h3 := Multiset.nodup_of_le h1 h2
  have he2 : Multiset.map Prod.snd ((knnScan train query k d : List Nbr) : Multiset Nbr) =
      (((knnScan train query k d).map Prod.snd : List ℕ) : Multiset ℕ) := rfl
  rw [he2] at h3
  exact Multiset.coe_nodup.mp h3

theorem predictOne_invalidK (train : List (List ℚ)) (test : List ℚ) (k : ℤ)
    (d : ℕ) (hk : k ≤ 0) : predictOne train test k d = .error "k must be > 0" := by
  rw [predictOne, if_pos hk]

theorem predictOne_insufficient (train : List (List ℚ)) (test : List ℚ)
    (k : ℤ) (d : ℕ) (hk : 0 < k) (hn : (train.length : ℤ) < k) :
    predictOne train test k d =
      .error "k cannot be larger than number of training points" := by
  rw [predictOne, if_neg (by omega), if_pos hn]

theorem predictOne_ok (train : List (List ℚ)) (test : List ℚ) (k : ℤ) (d : ℕ)
    (hk : 0 < k) (hn : k ≤ (train.length : ℤ)) :
    predictOne train test k d =
      .ok (if 0 ≤ voteLoop train d (knnScan train test k d) 0 then 1 else 0) := by
  rw [predictOne, if_neg (by omega), if_neg (by omega)]

/-- One step of the scan at capacity `k = 1` degenerates to keeping the
strictly closer of the current neighbor and the new one. -/
def minNbr (m x : Nbr) : Nbr := if x.1 < m.1 then x else m

theorem hpop_singleton (m : Nbr) : hpop [m] = [] := by
  rw [hpop, if_pos (by simp)]

theorem hpush_nil (x : Nbr) : hpush [] x = [x] := by
  unfold hpush
  rw [show (([] : List Nbr) ++ [x]) = [x] from rfl,
    show ([] : List Nbr).length = 0 from rfl, siftUp]

theorem knnStep_nil_of_pos (k : ℤ) (hk : 0 < k) (x : Nbr) :
    knnStep k [] x = [x] := by
  unfold knnStep
  rw [if_pos (by simpa using hk), hpush_nil]

theorem knnStep_one_singleton (m x : Nbr) :
    knnStep 1 [m] x = [minNbr m x] := by
  unfold knnStep minNbr
  rw [if_neg (by simp)]
  rw [show htop [m] = m from rfl]
  split
  · rw [hpop_singleton, hpush_nil]
  · rfl

theorem foldl_knnStep_one (xs : List Nbr) :
    ∀ (m : Nbr), xs.foldl (knnStep 1) [m] = [xs.foldl minNbr m] := by
  induction xs with
  | nil => intro m; rfl
  | cons x rest ih =>
      intro m
      rw [List.foldl_cons, knnStep_one_singleton, ih, List.foldl_cons]

theorem foldl_minNbr_spec (xs : List Nbr) :
    ∀ (m : Nbr), (∀ y ∈ xs, m.2 < y.2) →
      xs.Pairwise (fun a b => a.2 < b.2) →
      ∃ r, xs.foldl minNbr m = r ∧ (r = m ∨ r ∈ xs) ∧ r.1 ≤ m.1 ∧
        (∀ y ∈ xs, r.1 ≤ y.1) ∧ (r.1 = m.1 → r = m) ∧
        (∀ y ∈ xs, y.1 = r.1 → r.2 ≤ y.2) := by
  induction xs with
  | nil =>
      intro m _ _
      exact ⟨m, rfl, Or.inl rfl, le_rfl, by simp, fun _ => rfl, by simp⟩
  | cons x rest ih =>
      intro m hord hpair
      have hmx : m.2 < x.2 := hord x (List.mem_cons_self x rest)
      have hord' : ∀ y ∈ rest, (minNbr m x).2 < y.2 := by
        intro y hy
        unfold minNbr
        split
        · exact (List.pairwise_cons.mp hpair).1 y hy
        · exact hord y (List.mem_cons_of_mem x hy)
      have hpair' := (List.pairwise_cons.mp hpair).2
      obtain ⟨r, hr, hmem, hle, hall, htie_m, htie⟩ := ih (minNbr m x) hord' hpair'
      have hm'le : (minNbr m x).1 ≤ m.1 := by
        unfold minNbr
        split
        · rename_i hlt; exact hlt.le
        · exact le_rfl
      have hm'lex : (minNbr m x).1 ≤ x.1 := by
        unfold minNbr
        split
        · exact le_rfl
        · rename_i hlt; exact not_lt.mp hlt
      have hm'cases : minNbr m x = m ∨ minNbr m x = x := by
        unfold minNbr
        split
        · exact Or.inr rfl
        · exact Or.inl rfl
      have hm'eq : (minNbr m x).1 = m.1 → minNbr m x = m := by
        unfold minNbr
        split
        · rename_i hstrict; intro hcon; exact absurd hcon (ne_of_lt hstrict)
        · intro _; rfl
      refine ⟨r, by rw [List.foldl_cons]; exact hr, ?_, ?_, ?_, ?_, ?_⟩
      · rcases hmem with h1 | h1
        · rcases hm'cases with h2 | h2
          · exact Or.inl (h1.trans h2)
          · exact Or.inr (by rw [h1, h2]; exact List.mem_cons_self x rest)
        · exact Or.inr (List.mem_cons_of_mem x h1)
      · exact hle.trans hm'le
      · intro y hy
        rcases List.mem_cons.mp hy with h1 | h1
        · rw [h1]; exact hle.trans hm'lex
        · exact hall y h1
      · intro h1
        have h2 : (minNbr m x).1 = m.1 :=
          le_antisymm hm'le (by rw [← h1]; exact hle)
        have h3 : minNbr m x = m := hm'eq h2
        have h4 : r = minNbr m x := htie_m (by rw [h3]; exact h1)
        rw [h4, h3]
      · intro y hy hyr
        rcases List.mem_cons.mp hy with h1 | h1
        · by_cases hxlt : x.1 < m.1
          · have hm'x : minNbr m x = x := by unfold minNbr; rw [if_pos hxlt]
            have h3 : r = x := by
              have h4 := htie_m (by rw [hm'x]; rw [h1] at hyr; exact hyr.symm)
              rw [hm'x] at h4
              exact h4
            rw [h3, h1]
          · have hm'm : minNbr m x = m := by unfold minNbr; rw [if_neg hxlt]
            have hxm : m.1 ≤ x.1 := not_lt.mp hxlt
            rw [hm'm] at hle
            have h4 : r.1 = m.1 := by
              have h6 : m.1 ≤ r.1 := by
                rw [h1] at hyr
                rw [← hyr]
                exact hxm
              exact le_antisymm hle h6
            have h7 : r = m := by
              have h8 := htie_m (by rw [hm'm]; exact h4)
              rw [hm'm] at h8
              exact h8
            rw [h7, h1]
            exact hmx.le
        · exact htie y h1 hyr

theorem knnScan_one_argmin (train : List (List ℚ)) (query : List ℚ) (d : ℕ)
    (hn : 0 < train.length) :
    ∃ i, i < train.length ∧
      knnScan train query 1 d = [(queryDistSq train query d i, i)] ∧
      (∀ j, j < train.length →
        queryDistSq train query d i ≤ queryDistSq train query d j) ∧
      (∀ j, j < train.length →
        queryDistSq train query d j = queryDistSq train query d i → i ≤ j) := by
  obtain ⟨m, hm⟩ : ∃ m, train.length = m + 1 := ⟨train.length - 1, by omega⟩
  set f : ℕ → Nbr := fun i => (queryDistSq train query d i, i) with hf
  have htd : trainDists train query d = f 0 :: (List.range m).map (fun j => f (j + 1)) := by
    unfold trainDists
    rw [hm, List.range_succ_eq_map, List.map_cons, List.map_map]
    rfl
  have hscan : knnScan train query 1 d =
      [((List.range m).map (fun j => f (j + 1))).foldl minNbr (f 0)] := by
    unfold knnScan
    rw [htd, List.foldl_cons, knnStep_nil_of_pos 1 one_pos (f 0), foldl_knnStep_one]
  have hord : ∀ y ∈ (List.range m).map (fun j => f (j + 1)), (f 0).2 < y.2 := by
    intro y hy
    obtain ⟨j, _, rfl⟩ := List.mem_map.mp hy
    simp [hf]
  have hpair : ((List.range m).map (fun j => f (j + 1))).Pairwise
      (fun a b => a.2 < b.2) := by
    rw [List.pairwise_map]
    exact (List.pairwise_lt_range m).imp (fun hab => by simp [hf]; omega)
  obtain ⟨r, hr, hmem, hle, hall, htie_m, htie⟩ :=
    foldl_minNbr_spec _ (f 0) hord hpair
  have hrf : r = f r.2 := by
    rcases hmem with h1 | h1
    · rw [h1]
    · obtain ⟨j, _, heq⟩ := List.mem_map.mp h1
      rw [← heq]
  have hr1 : r.1 = queryDistSq train query d r.2 := by
    conv_lhs => rw [hrf]
  refine ⟨r.2, ?_, ?_, ?_, ?_⟩
  · rcases hmem with h1 | h1
    · rw [h1]; simp [hf]; omega
    · obtain ⟨j, hj, heq⟩ := List.mem_map.mp h1
      rw [← heq]
      have hjm := List.mem_range.mp hj
      simp [hf]
      omega
  · rw [hscan, hr]
    exact congrArg (fun z => [z]) hrf
  · intro j hj
    rw [← hr1]
    match j with
    | 0 => exact hle
    | j + 1 =>
        have hjm : j < m := by omega
        exact hall (f (j + 1)) (List.mem_map.mpr ⟨j, List.mem_range.mpr hjm, rfl⟩)
  · intro j hj heq
    match j with
    | 0 =>
        have h1 : r.1 = (f 0).1 := by rw [hr1, ← heq]
        have h2 := htie_m h1
        rw [h2]
    | j + 1 =>
        have hjm : j < m := by omega
        have h3 := htie (f (j + 1))
          (List.mem_map.mpr ⟨j, List.mem_range.mpr hjm, rfl⟩)
          (by rw [hr1]; exact heq)
        exact h3

theorem findKNN_nil (train : List (List ℚ)) (k : ℤ) (d : ℕ) :
    findKNN train [] k d = .ok [] := rfl

theorem findKNN_cons (train : List (List ℚ)) (p : List ℚ)
    (rest : List (List ℚ)) (k : ℤ) (d : ℕ) :
    findKNN train (p :: rest) k d =
      (predictOne train p k d).bind (fun cls =>
        (findKNN train rest k d).bind (fun out =>
          .ok ((p ++ [(cls : ℚ)]) :: out))) := rfl

theorem findKNN_ok_of_valid (train : List (List ℚ)) (test : List (List ℚ))
    (k : ℤ) (d : ℕ) (hk : 0 < k) (hn : k ≤ (train.length : ℤ)) :
    ∃ out, findKNN train test k d = .ok out ∧ out.length = test.length ∧
      ∀ i, i < test.length →
        ∃ c, predictOne train (test.getD i []) k d = .ok c ∧
          out.getD i [] = test.getD i [] ++ [(c : ℚ)] := by
  induction test with
  | nil =>
      refine ⟨[], rfl, rfl, ?_⟩
      intro i hi
      simp at hi
  | cons p rest ih =>
      obtain ⟨out, hout, hlen, hel⟩ := ih
      have hpred := predictOne_ok train p k d hk hn
      set c : ℤ := if 0 ≤ voteLoop train d (knnScan train p k d) 0 then 1 else 0 with hc
      refine ⟨(p ++ [(c : ℚ)]) :: out, ?_, by simp [hlen], ?_⟩
      · rw [findKNN_cons, hpred, hout]
        rfl
      · intro i hi
        match i with
        | 0 => exact ⟨c, by simpa using hpred, by simp⟩
        | i + 1 =>
            have hi' : i < rest.length := by simpa using hi
            obtain ⟨ci, h1, h2⟩ := hel i hi'
            exact ⟨ci, by simpa using h1, by simpa using h2⟩

theorem findKNN_error_of_invalid (train : List (List ℚ))
    (test : List (List ℚ)) (k : ℤ) (d : ℕ)
    (hbad : k ≤ 0 ∨ (train.length : ℤ) < k) (hne : test ≠ []) :
    ∃ msg, findKNN train test k d = .error msg := by
  match test, hne with
  | p :: rest, _ =>
      rcases hbad with h1 | h1
      · exact ⟨"k must be > 0", by
          rw [findKNN_cons, predictOne_invalidK train p k d h1]; rfl⟩
      · have h0 : 0 < k := by
          have h2 : (0 : ℤ) ≤ (train.length : ℤ) := Int.ofNat_nonneg _
          omega
        exact ⟨"k cannot be larger than number of training points", by
          rw [findKNN_cons, predictOne_insufficient train p k d h0 h1]; rfl⟩

theorem calcDistSqChecked_eq (p1 p2 : List ℚ) (d : ℕ)
    (h1 : d ≤ p1.length) (h2 : d ≤ p2.length) :
    calcDistSqChecked p1 p2 d = some (calcDistSqEuclidean p1 p2 d) := by
  unfold calcDistSqChecked calcDistSqEuclidean
  have hgen : ∀ (l : List ℕ), (∀ i ∈ l, i < p1.length ∧ i < p2.length) →
      ∀ s : ℚ,
      l.foldl (fun acc i => do
        let s ← acc
        let a ← p1[i]?
        let b ← p2[i]?
        pure (s + (a - b) ^ 2)) (some s) =
      some (l.foldl (fun sum i => sum + (p1.getD i 0 - p2.getD i 0) ^ 2) s) := by
    intro l
    induction l with
    | nil => intro _ s; rfl
    | cons x xs ih =>
        intro hmem s
        have hx := hmem x (List.mem_cons_self x xs)
        simp only [List.foldl_cons]
        have hstep : (do
            let s' ← (some s : Option ℚ)
            let a ← p1[x]?
            let b ← p2[x]?
            pure (s' + (a - b) ^ 2) : Option ℚ) =
            some (s + (p1.getD x 0 - p2.getD x 0) ^ 2) := by
          rw [List.getElem?_eq_getElem hx.1, List.getElem?_eq_getElem hx.2]
          simp [List.getD_eq_getElem?_getD, List.getElem?_eq_getElem, hx.1, hx.2]
        rw [hstep]
        exact ih (fun i hi => hmem i (List.mem_cons_of_mem x hi)) _
  apply hgen
  intro i hi
  have := List.mem_range.mp hi
  omega

theorem knnScanChecked_eq (train : List (List ℚ)) (query : List ℚ) (k : ℤ)
    (d : ℕ) (hq : d ≤ query.length) (htr : ∀ p ∈ train, d ≤ p.length) :
    knnScanChecked train query k d = some (knnScan train query k d) := by
  unfold knnScanChecked knnScan trainDists
  rw [List.foldl_map]
  have hgen : ∀ (l : List ℕ), (∀ i ∈ l, i < train.length) → ∀ h : List Nbr,
      l.foldl (fun acc i => do
        let hh ← acc
        let row ← train[i]?
        let dist ← calcDistSqChecked query row d
        pure (knnStep k hh (dist, i))) (some h) =
      some (l.foldl (fun hh i => knnStep k hh (queryDistSq train query d i, i)) h) := by
    intro l
    induction l with
    | nil => intro _ h; rfl
    | cons x xs ih =>
        intro hmem h
        have hx := hmem x (List.mem_cons_self x xs)
        simp only [List.foldl_cons]
        have hrowmem : train[x] ∈ train := List.getElem_mem hx
        have hstep : (do
            let hh ← (some h : Option (List Nbr))
            let row ← train[x]?
            let dist ← calcDistSqChecked query row d
            pure (knnStep k hh (dist, x)) : Option (List Nbr)) =
            some (knnStep k h (queryDistSq train query d x, x)) := by
          rw [List.getElem?_eq_getElem hx]
          simp only [Option.bind_eq_bind, Option.some_bind, Option.pure_def]
          rw [calcDistSqChecked_eq query train[x] d hq (htr _ hrowmem)]
          simp only [Option.some_bind]
          have halign : queryDistSq train query d x =
              calcDistSqEuclidean query train[x] d := by
            unfold queryDistSq
            congr 1
            simp [List.getD_eq_getElem?_getD, List.getElem?_eq_getElem hx]
          rw [halign]
        rw [hstep]
        exact ih (fun i hi => hmem i (List.mem_cons_of_mem x hi)) _
  apply hgen
  intro i hi
  exact List.mem_range.mp hi

theorem voteLoopChecked_eq (train : List (List ℚ)) (d : ℕ)
    (htr : ∀ p ∈ train, d < p.length) :
    ∀ (n : ℕ) (heap : List Nbr), heap.length ≤ n →
      (∀ a ∈ heap, a.2 < train.length) → ∀ v,
      voteLoopChecked train d heap v = some (voteLoop train d heap v) := by
  intro n
  induction n with
  | zero =>
      intro heap hlen _ v
      have hz : heap = [] := List.length_eq_zero.mp (by omega)
      subst hz
      rw [voteLoopChecked, dif_pos rfl, voteLoop, dif_pos rfl]
  | succ n ih =>
      intro heap hlen hmem v
      by_cases hne : heap = []
      · subst hne
        rw [voteLoopChecked, dif_pos rfl, voteLoop, dif_pos rfl]
      · rw [voteLoopChecked, dif_neg hne, voteLoop, dif_neg hne]
        have hidx : (htop heap).2 < train.length := hmem _ (htop_mem heap hne)
        have hrowmem : train[(htop heap).2] ∈ train := List.getElem_mem hidx
        have hd : d < (train[(htop heap).2]).length := htr _ hrowmem
        rw [List.getElem?_eq_getElem hidx]
        simp only [Option.bind_eq_bind, Option.some_bind]
        rw [List.getElem?_eq_getElem hd]
        simp only [Option.some_bind]
        have halign : labelSign train d (htop heap).2 =
            if truncInt (train[(htop heap).2][d]) = 0 then -1 else 1 := by
          unfold labelSign
          congr 2
          simp [List.getD_eq_getElem?_getD, List.getElem?_eq_getElem, hidx, hd]
        have hrec := ih (hpop heap) (by rw [hpop_length]; omega)
          (fun a ha => hmem a
            (List.mem_of_mem_tail ((hpop_perm heap).mem_iff.mp ha)))
          (v + if truncInt (train[(htop heap).2][d]) = 0 then -1 else 1)
        rw [halign]
        simpa using hrec

theorem predictOneChecked_eq (train : List (List ℚ)) (test : List ℚ) (k : ℤ)
    (d : ℕ) (htr : ∀ p ∈ train, d < p.length) (hq : d ≤ test.length) :
    predictOneChecked train test k d = some (predictOne train test k d) := by
  unfold predictOneChecked predictOne
  by_cases h1 : k ≤ 0
  · rw [if_pos h1, if_pos h1]
  · rw [if_neg h1, if_neg h1]
    by_cases h2 : (train.length : ℤ) < k
    · rw [if_pos h2, if_pos h2]
    · rw [if_neg h2, if_neg h2]
      have hk : 0 < k := by omega
      rw [knnScanChecked_eq train test k d hq (fun p hp => (htr p hp).le)]
      simp only [Option.bind_eq_bind, Option.some_bind]
      rw [voteLoopChecked_eq train d htr (knnScan train test k d).length
        (knnScan train test k d) le_rfl
        (fun a ha => knnScan_snd_lt train test k d hk a ha) 0]
      simp only [Option.some_bind]

theorem truncInt_zero : truncInt 0 = 0 := by simp [truncInt]

theorem truncInt_one : truncInt 1 = 1 := by simp [truncInt]

theorem knnStep_grow (k : ℤ) (heap : List Nbr) (x : Nbr)
    (hlen : (heap.length : ℤ) < k) : knnStep k heap x = hpush heap x := by
  unfold knnStep
  rw [if_pos hlen]

theorem knnStep_keep (k : ℤ) (heap : List Nbr) (x : Nbr)
    (hlen : ¬(heap.length : ℤ) < k) (hge : ¬x.1 < (htop heap).1) :
    knnStep k heap x = heap := by
  unfold knnStep
  rw [if_neg hlen, if_neg hge]

theorem knnStep_replace (k : ℤ) (heap : List Nbr) (x : Nbr)
    (hlen : ¬(heap.length : ℤ) < k) (hlt : x.1 < (htop heap).1) :
    knnStep k heap x = hpush (hpop heap) x := by
  unfold knnStep
  rw [if_neg hlen, if_pos hlt]

theorem hpush_one_keep (m x : Nbr) (h : ¬m.1 < x.1) : hpush [m] x = [m, x] := by
  unfold hpush
  rw [show ([m] ++ [x] : List Nbr) = [m, x] from rfl,
    show ([m] : List Nbr).length = 1 from rfl, siftUp,
    if_neg (by simpa [parentIdx, dNbr] using h)]

theorem hpush_one_swap (m x : Nbr) (h : m.1 < x.1) : hpush [m] x = [x, m] := by
  unfold hpush
  rw [show ([m] ++ [x] : List Nbr) = [m, x] from rfl,
    show ([m] : List Nbr).length = 1 from rfl, siftUp,
    if_pos (by simpa [parentIdx, dNbr] using h)]
  rw [show lswap [m, x] (parentIdx 1) 1 = [x, m] from by simp [lswap, parentIdx, dNbr],
    show parentIdx 1 = 0 from rfl, siftUp]

theorem hpop_two (a b : Nbr) : hpop [a, b] = [b] := by
  unfold hpop
  rw [if_neg (by norm_num)]
  rw [show ([a, b] : List Nbr).dropLast = [a] from rfl,
    show ([a, b] : List Nbr).length - 1 = 1 from rfl,
    show ([a, b] : List Nbr).getD 1 dNbr = b from rfl,
    show ([a] : List Nbr).set 0 b = [b] from rfl]
  rw [siftDown, dif_neg (by norm_num)]

theorem voteLoop_one (train : List (List ℚ)) (d : ℕ) (a : Nbr) (v : ℤ) :
    voteLoop train d [a] v = v + labelSign train d a.2 := by
  rw [voteLoop, dif_neg (by simp), show htop [a] = a from rfl, hpop_singleton]
  rw [voteLoop, dif_pos rfl]

theorem voteLoop_two (train : List (List ℚ)) (d : ℕ) (a b : Nbr) (v : ℤ) :
    voteLoop train d [a, b] v =
      v + labelSign train d a.2 + labelSign train d b.2 := by
  rw [voteLoop, dif_neg (by simp), show htop [a, b] = a from rfl, hpop_two]
  rw [voteLoop_one]

/-- Lexicographic comparison of neighbor records: smaller distance first,
ties broken by lower training index.  This is the order in which the spec
describes the reference selection ("fully sorting all distances ... ties
broken by lowest index"). -/
def nbrLexLe (a b : Nbr) : Prop := a.1 < b.1 ∨ (a.1 = b.1 ∧ a.2 ≤ b.2)

instance nbrLexLe.instDecidableRel : DecidableRel nbrLexLe := fun a b => by
  unfold nbrLexLe
  infer_instance

/-- Reference selection of the spec's selection-correctness property: all
neighbor records fully sorted by (distance, index); its length-k prefix is
the spec's claimed retained set. -/
def sortedNeighbors (train : List (List ℚ)) (query : List ℚ) (d : ℕ) :
    List Nbr :=
  List.insertionSort nbrLexLe (trainDists train query d)

/-- All squared distances from the query to the training points, fully
sorted; the reference for the distance-level selection property. -/
def sortedDistsSq (train : List (List ℚ)) (query : List ℚ) (d : ℕ) :
    List ℚ :=
  List.insertionSort (· ≤ ·) ((trainDists train query d).map Prod.fst)

/-- Signed tally of the majority vote of `predictOne` over the retained
neighbor set: label 0 contributes −1, any other (binary data: label 1)
contributes +1. -/
def voteTally (train : List (List ℚ)) (query : List ℚ) (k : ℤ) (d : ℕ) : ℤ :=
  ((knnScan train query k d).map (fun p => labelSign train d p.2)).sum

theorem cex_trainDists_eval :
    trainDists [[5], [5], [3]] [0] 1 = [(25, 0), (25, 1), (9, 2)] := by
  unfold trainDists queryDistSq calcDistSqEuclidean
  simp only [show List.range 3 = [0, 1, 2] from rfl,
    show List.range 1 = [0] from rfl,
    List.map_cons, List.map_nil, List.foldl_cons, List.foldl_nil,
    List.getD_cons_zero, List.getD_cons_succ, List.length_cons, List.length_nil]
  norm_num

theorem cex_knnScan_eval :
    knnScan [[5], [5], [3]] [0] 2 1 = [(25, 1), (9, 2)] := by
  rw [knnScan, cex_trainDists_eval]
  rw [List.foldl_cons, List.foldl_cons, List.foldl_cons, List.foldl_nil]
  rw [knnStep_grow 2 [] (25, 0) (by norm_num), hpush_nil]
  rw [knnStep_grow 2 [((25 : ℚ), 0)] (25, 1) (by norm_num),
    hpush_one_keep _ _ (by norm_num)]
  rw [knnStep_replace 2 [((25 : ℚ), 0), ((25 : ℚ), 1)] (9, 2) (by norm_num)
    (by norm_num [htop, dNbr]), hpop_two, hpush_one_keep _ _ (by norm_num)]

theorem cex_sortedNeighbors_eval :
    sortedNeighbors [[5], [5], [3]] [0] 1 = [(9, 2), (25, 0), (25, 1)] := by
  rw [sortedNeighbors, cex_trainDists_eval]
  norm_num [List.insertionSort, List.orderedInsert, nbrLexLe]

theorem calcDistEuclidean_le_iff (a b c e : List ℚ) (d : ℕ) :
    calcDistEuclidean a b d ≤ calcDistEuclidean c e d ↔
      calcDistSqEuclidean a b d ≤ calcDistSqEuclidean c e d := by
  unfold calcDistEuclidean
  rw [Real.sqrt_le_sqrt_iff (by exact_mod_cast calcDistSqEuclidean_nonneg c e d)]
  exact_mod_cast Iff.rfl

theorem findKNN_ok_getD (train : List (List ℚ)) (test : List (List ℚ))
    (k : ℤ) (d : ℕ) :
    ∀ (out : List (List ℚ)), findKNN train test k d = .ok out →
      ∀ i, i < test.length →
        ∃ c, predictOne train (test.getD i []) k d = .ok c ∧
          out.getD i [] = test.getD i [] ++ [(c : ℚ)] := by
  induction test with
  | nil =>
      intro out _ i hi
      simp at hi
  | cons p rest ih =>
      intro out h i hi
      cases hp : predictOne train p k d with
      | error e =>
          rw [findKNN_cons, hp] at h
          exact absurd h (by simp [Except.bind])
      | ok c₀ =>
          cases hrest : findKNN train rest k d with
          | error e =>
              rw [findKNN_cons, hp, hrest] at h
              exact absurd h (by simp [Except.bind])
          | ok out' =>
              rw [findKNN_cons, hp, hrest] at h
              simp only [Except.bind] at h
              have hout : out = (p ++ [(c₀ : ℚ)]) :: out' := by
                cases h
                rfl
              subst hout
              match i with
              | 0 => exact ⟨c₀, by simpa using hp, by simp⟩
              | i + 1 =>
                  have hi' : i < rest.length := by simpa using hi
                  obtain ⟨c, h1, h2⟩ := ih out' hrest i hi'
                  exact ⟨c, by simpa using h1, by simpa using h2⟩

theorem getD_append_middle (pre post : List (List ℚ)) (p : List ℚ) :
    (pre ++ p :: post).getD pre.length [] = p := by
  rw [List.getD_eq_getElem?_getD, List.getElem?_append_right le_rfl]
  simp

/-- C1 counterexample: with training distances 5, 5, 3 (squared: 25, 25, 9),
query at the origin and k = 2, the heap first holds both distance-25 points
with the first-seen point (index 0) at the root; when the strictly smaller
distance 9 arrives, `heap.pop()` evicts the root, i.e. the lowest-index
boundary-tied point, so the retained set is {(25,1),(9,2)} while the fully
sorted prefix with ties broken by lowest index is {(9,2),(25,0)}.  The
claimed set equality is therefore false at this input. -/
theorem knn_C1_counterexample :
    ¬ (((knnScan [[5], [5], [3]] [0] 2 1 : List Nbr) : Multiset Nbr) =
      (((sortedNeighbors [[5], [5], [3]] [0] 1).take 2 : List Nbr) : Multiset Nbr)) := by
  rw [cex_knnScan_eval, cex_sortedNeighbors_eval]
  decide

/-- C1 (amended): for every training set, query, k and d with 0 < k and
k ≤ |train|, the multiset of distances of the neighbor records retained by
the scan of `predictOne` equals the length-k prefix of the fully sorted
list of all n distances (distances are compared via their squares, which
`calcDistEuclidean_lt_iff` shows is equivalent).  The original claim's
lowest-index tie-break on the retained identities does not hold (see the
counterexample); only the distance multiset is as claimed. -/
theorem knn_C1_amended (train : List (List ℚ)) (query : List ℚ) (k : ℤ)
    (d : ℕ) (hk : 0 < k) (hkn : k.toNat ≤ train.length) :
    (((knnScan train query k d).map Prod.fst : List ℚ) : Multiset ℚ) =
      (((sortedDistsSq train query d).take k.toNat : List ℚ) : Multiset ℚ) := by
  obtain ⟨hheap, hlen, hsub, hsep⟩ := knnScan_inv train query k d hk
  have hsorted : (sortedDistsSq train query d).Sorted (· ≤ ·) :=
    List.sorted_insertionSort _ _
  have hperm : List.Perm ((trainDists train query d).map Prod.fst)
      (sortedDistsSq train query d) :=
    (List.perm_insertionSort _ _).symm
  have hcoeTS : (((trainDists train query d).map Prod.fst : List ℚ) : Multiset ℚ) =
      ((sortedDistsSq train query d : List ℚ) : Multiset ℚ) :=
    Multiset.coe_eq_coe.mpr hperm
  have hM_le : (((knnScan train query k d).map Prod.fst : List ℚ) : Multiset ℚ) ≤
      ((sortedDistsSq train query d : List ℚ) : Multiset ℚ) := by
    rw [← hcoeTS]
    exact Multiset.map_le_map hsub
  have hcard : Multiset.card
      (((knnScan train query k d).map Prod.fst : List ℚ) : Multiset ℚ) = k.toNat := by
    rw [Multiset.coe_card, List.length_map]
    exact knnScan_length train query k d hk hkn
  have hsep' : ∀ x ∈ (((knnScan train query k d).map Prod.fst : List ℚ) : Multiset ℚ),
      ∀ y ∈ ((sortedDistsSq train query d : List ℚ) : Multiset ℚ) -
        (((knnScan train query k d).map Prod.fst : List ℚ) : Multiset ℚ), x ≤ y := by
    intro x hx y hy
    rw [← hcoeTS] at hy
    have hms : (((trainDists train query d).map Prod.fst : List ℚ) : Multiset ℚ) -
        (((knnScan train query k d).map Prod.fst : List ℚ) : Multiset ℚ) =
        Multiset.map Prod.fst
          (((trainDists train query d : List Nbr) : Multiset Nbr) -
            ((knnScan train query k d : List Nbr) : Multiset Nbr)) :=
      (map_fst_sub _ _ hsub).symm
    rw [hms] at hy
    obtain ⟨b, hb, rfl⟩ := Multiset.mem_map.mp hy
    have hx' : x ∈ Multiset.map Prod.fst
        ((knnScan train query k d : List Nbr) : Multiset Nbr) := hx
    obtain ⟨a, ha, rfl⟩ := Multiset.mem_map.mp hx'
    exact hsep a (Multiset.mem_coe.mp ha) b hb
  exact bottomK_sorted_take _ hsorted k.toNat _ hM_le hcard hsep'

theorem knn_C1_amended_witness :
    (((knnScan [[5], [5], [3]] [0] 2 1).map Prod.fst : List ℚ) : Multiset ℚ) =
      (((sortedDistsSq [[5], [5], [3]] [0] 1).take (2 : ℤ).toNat : List ℚ) : Multiset ℚ) :=
  knn_C1_amended [[5], [5], [3]] [0] 2 1 (by norm_num) (by decide)

/-- C2: for every valid call, `predictOne` returns 1 exactly when the
signed tally over the retained neighbors' labels (label 0 contributes −1,
anything else, i.e. label 1 on binary data, contributes +1) is
nonnegative, and 0 otherwise; in particular a tally of exactly 0 yields
prediction 1 (see the witness: a query equidistant from one 0-labeled and
one 1-labeled point at k = 2 returns 1). -/
theorem knn_C2_majority_vote (train : List (List ℚ)) (query : List ℚ)
    (k : ℤ) (d : ℕ) (hk : 0 < k) (hkn : k ≤ (train.length : ℤ)) :
    predictOne train query k d =
      .ok (if 0 ≤ voteTally train query k d then 1 else 0) := by
  rw [predictOne_ok train query k d hk hkn, voteLoop_eq_sum, zero_add]
  rfl

theorem knn_C2_witness : predictOne [[0, 0], [2, 1]] [1] 2 1 = Except.ok 1 := by
  have h := knn_C2_majority_vote [[0, 0], [2, 1]] [1] 2 1 (by norm_num) (by norm_num)
  rw [h]
  have htd : trainDists [[0, 0], [2, 1]] [1] 1 = [(1, 0), (1, 1)] := by
    unfold trainDists queryDistSq calcDistSqEuclidean
    simp only [show List.range 2 = [0, 1] from rfl, show List.range 1 = [0] from rfl,
      List.map_cons, List.map_nil, List.foldl_cons, List.foldl_nil,
      List.getD_cons_zero, List.getD_cons_succ, List.length_cons, List.length_nil]
    norm_num
  have hscan : knnScan [[0, 0], [2, 1]] [1] 2 1 = [(1, 0), (1, 1)] := by
    rw [knnScan, htd, List.foldl_cons, List.foldl_cons, List.foldl_nil]
    rw [knnStep_grow 2 [] (1, 0) (by norm_num), hpush_nil]
    rw [knnStep_grow 2 [((1 : ℚ), 0)] (1, 1) (by norm_num),
      hpush_one_keep _ _ (by norm_num)]
  have htally : voteTally [[0, 0], [2, 1]] [1] 2 1 = 0 := by
    unfold voteTally
    rw [hscan]
    simp only [List.map_cons, List.map_nil, List.sum_cons, List.sum_nil, labelSign,
      List.getD_cons_zero, List.getD_cons_succ, truncInt_zero, truncInt_one]
    norm_num
  rw [htally]
  norm_num

/-- C3: `predictOne` fails with the invalid-k error exactly on k ≤ 0, with
the insufficient-training-data error exactly on 0 < k with k > |train|,
and otherwise succeeds with some prediction — so failure happens if and
only if k ≤ 0 or k > |train|, on failure no prediction value (and hence no
neighbor set) is produced, and no other error condition exists. -/
theorem knn_C3_error_iff (train : List (List ℚ)) (test : List ℚ) (k : ℤ)
    (d : ℕ) :
    (k ≤ 0 → predictOne train test k d = .error "k must be > 0") ∧
    (0 < k → (train.length : ℤ) < k →
      predictOne train test k d =
        .error "k cannot be larger than number of training points") ∧
    (0 < k → k ≤ (train.length : ℤ) → ∃ c, predictOne train test k d = .ok c) := by
  refine ⟨fun h => predictOne_invalidK train test k d h,
    fun h1 h2 => predictOne_insufficient train test k d h1 h2,
    fun h1 h2 => ⟨_, predictOne_ok train test k d h1 h2⟩⟩

theorem knn_C3_witness :
    predictOne [[0]] [0] 0 1 = Except.error "k must be > 0" ∧
    predictOne [[0]] [0] 2 1 =
      Except.error "k cannot be larger than number of training points" ∧
    ∃ c, predictOne [[0]] [0] 1 1 = Except.ok c :=
  ⟨(knn_C3_error_iff [[0]] [0] 0 1).1 (by decide),
   (knn_C3_error_iff [[0]] [0] 2 1).2.1 (by decide) (by decide),
   (knn_C3_error_iff [[0]] [0] 1 1).2.2 (by decide) (by decide)⟩

/-- C6: `calcDistEuclidean` is symmetric in its two vector arguments, for
vectors with at least d components. -/
theorem knn_C6_distance_symm (a b : List ℚ) (d : ℕ) (_ha : d ≤ a.length)
    (_hb : d ≤ b.length) : calcDistEuclidean a b d = calcDistEuclidean b a d := by
  unfold calcDistEuclidean
  rw [calcDistSqEuclidean_symm]

theorem knn_C6_witness :
    calcDistEuclidean [1, 2] [3, 5] 2 = calcDistEuclidean [3, 5] [1, 2] 2 :=
  knn_C6_distance_symm [1, 2] [3, 5] 2 (by simp) (by simp)

/-- C7: on an invalid configuration (k ≤ 0 or k > |train|) and a nonempty
test set, the whole batch `findKNN` aborts with an error: no output dataset
is produced and no test point receives a label. -/
theorem knn_C7_batch_abort (train test : List (List ℚ)) (k : ℤ) (d : ℕ)
    (hbad : k ≤ 0 ∨ (train.length : ℤ) < k) (hne : test ≠ []) :
    ∃ msg, findKNN train test k d = .error msg :=
  findKNN_error_of_invalid train test k d hbad hne

theorem knn_C7_witness : ∃ msg, findKNN [] [[0]] 1 1 = Except.error msg :=
  knn_C7_batch_abort [] [[0]] 1 1 (Or.inr (by decide)) (by decide)

/-- C9: for every valid call, the heap retained by the scan of
`predictOne` holds exactly k entries at the end, their training indices
are pairwise distinct, and every retained index is a valid training
index. -/
theorem knn_C9_heap_invariant (train : List (List ℚ)) (query : List ℚ)
    (k : ℤ) (d : ℕ) (hk : 0 < k) (hkn : k.toNat ≤ train.length) :
    (knnScan train query k d).length = k.toNat ∧
    ((knnScan train query k d).map Prod.snd).Nodup ∧
    ∀ a ∈ knnScan train query k d, a.2 < train.length :=
  ⟨knnScan_length train query k d hk hkn,
   knnScan_snd_nodup train query k d hk,
   fun a ha => knnScan_snd_lt train query k d hk a ha⟩

theorem knn_C9_witness :
    (knnScan [[5], [5], [3]] [0] 2 1).length = (2 : ℤ).toNat ∧
    ((knnScan [[5], [5], [3]] [0] 2 1).map Prod.snd).Nodup ∧
    ∀ a ∈ knnScan [[5], [5], [3]] [0] 2 1, a.2 < ([[5], [5], [3]] : List (List ℚ)).length :=
  knn_C9_heap_invariant [[5], [5], [3]] [0] 2 1 (by norm_num) (by decide)

/-- C4: for every valid call, the batch predictor `findKNN` succeeds and
returns one labeled point per test point, in the same order: the i-th
output is exactly the i-th input feature vector with the single predicted
label appended (prediction is additive, not destructive); the training
set, passed by const reference in the source and unchanged in this
functional embedding, is not modified. -/
theorem knn_C4_batch_order (train test : List (List ℚ)) (k : ℤ) (d : ℕ)
    (hk : 0 < k) (hn : k ≤ (train.length : ℤ)) :
    ∃ out, findKNN train test k d = .ok out ∧ out.length = test.length ∧
      ∀ i, i < test.length →
        ∃ c, predictOne train (test.getD i []) k d = .ok c ∧
          out.getD i [] = test.getD i [] ++ [(c : ℚ)] :=
  findKNN_ok_of_valid train test k d hk hn

theorem knn_C4_witness :
    ∃ out, findKNN [[0, 1]] [[0], [5]] 1 1 = .ok out ∧
      out.length = ([[0], [5]] : List (List ℚ)).length ∧
      ∀ i, i < ([[0], [5]] : List (List ℚ)).length →
        ∃ c, predictOne [[0, 1]] (([[0], [5]] : List (List ℚ)).getD i []) 1 1 = .ok c ∧
          out.getD i [] = ([[0], [5]] : List (List ℚ)).getD i [] ++ [(c : ℚ)] :=
  knn_C4_batch_order [[0, 1]] [[0], [5]] 1 1 (by norm_num) (by norm_num)

/-- C5: with k = 1 on a nonempty training set with binary labels, the
prediction of `predictOne` is the label of the single closest training
point under the Euclidean distance, the lowest-index one at equal minimal
distances (the label is read back as the source does, by truncating the
stored double to int). -/
theorem knn_C5_nearest_neighbor (train : List (List ℚ)) (query : List ℚ)
    (d : ℕ) (hn : 0 < train.length)
    (hlab : ∀ p ∈ train, p.getD d 0 = 0 ∨ p.getD d 0 = 1) :
    ∃ i, i < train.length ∧
      (∀ j, j < train.length →
        calcDistEuclidean query (train.getD i []) d ≤
          calcDistEuclidean query (train.getD j []) d) ∧
      (∀ j, j < train.length →
        calcDistEuclidean query (train.getD j []) d =
          calcDistEuclidean query (train.getD i []) d → i ≤ j) ∧
      predictOne train query 1 d = .ok (truncInt ((train.getD i []).getD d 0)) := by
  obtain ⟨i, hi, hscan, hmin, htie⟩ := knnScan_one_argmin train query d hn
  refine ⟨i, hi, ?_, ?_, ?_⟩
  · intro j hj
    rw [calcDistEuclidean_le_iff]
    exact hmin j hj
  · intro j hj heq
    rw [calcDistEuclidean_inj_iff] at heq
    exact htie j hj heq
  · rw [predictOne_ok train query 1 d (by norm_num) (by exact_mod_cast hn)]
    rw [hscan, voteLoop_one]
    have hmem : train.getD i [] ∈ train := by
      rw [List.getD_eq_getElem?_getD, List.getElem?_eq_getElem hi]
      exact List.getElem_mem hi
    rcases hlab _ hmem with h0 | h1
    · rw [show labelSign train d ((queryDistSq train query d i, i) : Nbr).2 = -1 from by
        unfold labelSign
        rw [show ((queryDistSq train query d i, i) : Nbr).2 = i from rfl, h0,
          truncInt_zero, if_pos rfl]]
      rw [h0, truncInt_zero]
      norm_num
    · rw [show labelSign train d ((queryDistSq train query d i, i) : Nbr).2 = 1 from by
        unfold labelSign
        rw [show ((queryDistSq train query d i, i) : Nbr).2 = i from rfl, h1,
          truncInt_one, if_neg (by norm_num)]]
      rw [h1, truncInt_one]
      norm_num

theorem knn_C5_witness :
    ∃ i, i < ([[0, 0], [2, 1]] : List (List ℚ)).length ∧
      (∀ j, j < ([[0, 0], [2, 1]] : List (List ℚ)).length →
        calcDistEuclidean [0] (([[0, 0], [2, 1]] : List (List ℚ)).getD i []) 1 ≤
          calcDistEuclidean [0] (([[0, 0], [2, 1]] : List (List ℚ)).getD j []) 1) ∧
      (∀ j, j < ([[0, 0], [2, 1]] : List (List ℚ)).length →
        calcDistEuclidean [0] (([[0, 0], [2, 1]] : List (List ℚ)).getD j []) 1 =
          calcDistEuclidean [0] (([[0, 0], [2, 1]] : List (List ℚ)).getD i []) 1 → i ≤ j) ∧
      predictOne [[0, 0], [2, 1]] [0] 1 1 =
        .ok (truncInt ((([[0, 0], [2, 1]] : List (List ℚ)).getD i []).getD 1 0)) :=
  knn_C5_nearest_neighbor [[0, 0], [2, 1]] [0] 1 (by norm_num) (by decide)

/-- C8: in `predictOne`, the label of each selected training vector is
read at index d, one position past the d components the distance metric
uses, so training vectors need length at least d + 1 — strictly more than
the distance metric's requirement (a training vector of length exactly d
makes the checked run fail, second conjunct) — and under that
precondition, together with the query having at least d components, every
vector access performed by `predictOne` and `calcDistEuclidean` is in
bounds: the fully bounds-checked run returns the unchecked result. -/
theorem knn_C8_access_bounds :
    (∀ (train : List (List ℚ)) (test : List ℚ) (k : ℤ) (d : ℕ),
      (∀ p ∈ train, d < p.length) → d ≤ test.length →
      predictOneChecked train test k d = some (predictOne train test k d)) ∧
    predictOneChecked [[0]] [0] 1 1 = none := by
  refine ⟨fun train test k d htr hq => predictOneChecked_eq train test k d htr hq, ?_⟩
  have h1 : knnScanChecked [[(0 : ℚ)]] [0] 1 1 = some [(0, 0)] := by
    unfold knnScanChecked calcDistSqChecked
    simp only [show List.range 1 = [0] from rfl, List.foldl_cons, List.foldl_nil,
      List.length_cons, List.length_nil, List.getElem?_cons_zero,
      Option.bind_eq_bind, Option.some_bind, Option.pure_def]
    rw [knnStep_nil_of_pos 1 one_pos]
    norm_num
  have h2 : voteLoopChecked [[(0 : ℚ)]] 1 [((0 : ℚ), 0)] 0 = none := by
    rw [voteLoopChecked, dif_neg (by simp)]
    simp [htop, dNbr]
  unfold predictOneChecked
  rw [if_neg (by norm_num), if_neg (by norm_num), h1]
  simp only [Option.bind_eq_bind, Option.some_bind]
  rw [h2]
  rfl

/-- C10: the classification pipeline is deterministic and per-point: with
equal arguments `predictOne` and `findKNN` return equal results (the
functional embedding has no other inputs — no hidden state or
randomness), and the labeled point `findKNN` produces for a given test
point depends only on the training set, that point, k and d, not on the
other test points around it. -/
theorem knn_C10_deterministic :
    (∀ (train₁ train₂ : List (List ℚ)) (q₁ q₂ : List ℚ)
        (test₁ test₂ : List (List ℚ)) (k₁ k₂ : ℤ) (d₁ d₂ : ℕ),
      train₁ = train₂ → q₁ = q₂ → test₁ = test₂ → k₁ = k₂ → d₁ = d₂ →
      predictOne train₁ q₁ k₁ d₁ = predictOne train₂ q₂ k₂ d₂ ∧
      findKNN train₁ test₁ k₁ d₁ = findKNN train₂ test₂ k₂ d₂) ∧
    (∀ (train : List (List ℚ)) (k : ℤ) (d : ℕ) (p : List ℚ)
        (pre₁ post₁ pre₂ post₂ out₁ out₂ : List (List ℚ)),
      findKNN train (pre₁ ++ p :: post₁) k d = .ok out₁ →
      findKNN train (pre₂ ++ p :: post₂) k d = .ok out₂ →
      out₁.getD pre₁.length [] = out₂.getD pre₂.length []) := by
  constructor
  · intro train₁ train₂ q₁ q₂ test₁ test₂ k₁ k₂ d₁ d₂ h1 h2 h3 h4 h5
    subst h1; subst h2; subst h3; subst h4; subst h5
    exact ⟨rfl, rfl⟩
  · intro train k d p pre₁ post₁ pre₂ post₂ out₁ out₂ h1 h2
    have hi₁ : pre₁.length < (pre₁ ++ p :: post₁).length := by simp
    have hi₂ : pre₂.length < (pre₂ ++ p :: post₂).length := by simp
    obtain ⟨c₁, hc₁, ho₁⟩ := findKNN_ok_getD train _ k d out₁ h1 pre₁.length hi₁
    obtain ⟨c₂, hc₂, ho₂⟩ := findKNN_ok_getD train _ k d out₂ h2 pre₂.length hi₂
    rw [getD_append_middle] at hc₁ ho₁
    rw [getD_append_middle] at hc₂ ho₂
    have hcc : c₁ = c₂ := by
      have := hc₁.symm.trans hc₂
      exact Except.ok.inj this
    rw [ho₁, ho₂, hcc]

theorem knn_C10_witness :
    (predictOne [[0, 1]] [0] 1 1 = predictOne [[0, 1]] [0] 1 1 ∧
      findKNN [[0, 1]] [[0], [5]] 1 1 = findKNN [[0, 1]] [[0], [5]] 1 1) ∧
    ([[(0 : ℚ), 1], [5, 1]] : List (List ℚ)).getD 0 [] =
      ([[(5 : ℚ), 1], [0, 1]] : List (List ℚ)).getD 1 [] := by
  constructor
  · exact knn_C10_deterministic.1 [[0, 1]] [[0, 1]] [0] [0] [[0], [5]] [[0], [5]]
      1 1 1 1 rfl rfl rfl rfl rfl
  · have hp0 : predictOne [[(0 : ℚ), 1]] [0] 1 1 = .ok 1 := by
      rw [predictOne_ok _ _ _ _ (by norm_num) (by norm_num)]
      have htd : trainDists [[(0 : ℚ), 1]] [0] 1 = [(0, 0)] := by
        unfold trainDists queryDistSq calcDistSqEuclidean
        simp only [show List.range 1 = [0] from rfl, List.map_cons, List.map_nil,
          List.foldl_cons, List.foldl_nil, List.getD_cons_zero, List.getD_cons_succ,
          List.length_cons, List.length_nil]
        norm_num
      rw [knnScan, htd, List.foldl_cons, List.foldl_nil,
        knnStep_nil_of_pos 1 one_pos, voteLoop_one]
      simp only [labelSign, List.getD_cons_zero, List.getD_cons_succ, truncInt_one]
      norm_num
    have hp5 : predictOne [[(0 : ℚ), 1]] [5] 1 1 = .ok 1 := by
      rw [predictOne_ok _ _ _ _ (by norm_num) (by norm_num)]
      have htd : trainDists [[(0 : ℚ), 1]] [5] 1 = [(25, 0)] := by
        unfold trainDists queryDistSq calcDistSqEuclidean
        simp only [show List.range 1 = [0] from rfl, List.map_cons, List.map_nil,
          List.foldl_cons, List.foldl_nil, List.getD_cons_zero, List.getD_cons_succ,
          List.length_cons, List.length_nil]
        norm_num
      rw [knnScan, htd, List.foldl_cons, List.foldl_nil,
        knnStep_nil_of_pos 1 one_pos, voteLoop_one]
      simp only [labelSign, List.getD_cons_zero, List.getD_cons_succ, truncInt_one]
      norm_num
    have h1 : findKNN [[(0 : ℚ), 1]] ([] ++ [0] :: [[5]]) 1 1 =
        .ok [[(0 : ℚ), 1], [5, 1]] := by
      rw [show ([] ++ [0] :: [[5]] : List (List ℚ)) = [[0], [5]] from rfl]
      rw [findKNN_cons, hp0, findKNN_cons, hp5, findKNN_nil]
      rfl
    have h2 : findKNN [[(0 : ℚ), 1]] ([[5]] ++ [0] :: []) 1 1 =
        .ok [[(5 : ℚ), 1], [0, 1]] := by
      rw [show ([[5]] ++ [0] :: [] : List (List ℚ)) = [[5], [0]] from rfl]
      rw [findKNN_cons, hp5, findKNN_cons, hp0, findKNN_nil]
      rfl
    exact knn_C10_deterministic.2 [[0, 1]] 1 1 [0] [] [[5]] [[5]] []
      [[(0 : ℚ), 1], [5, 1]] [[(5 : ℚ), 1], [0, 1]] h1 h2

theorem knn_C8_witness :
    predictOneChecked [[0, 1]] [0] 1 1 = some (predictOne [[0, 1]] [0] 1 1) :=
  knn_C8_access_bounds.1 [[0, 1]] [0] 1 1 (by decide) (by decide)
